import Mathlib

/-!
bad-omen-scout: poll, extract, dedupe, notify.

A shallow embedding of `main.go` and the properties of its poll cycle.

Text is a list of characters.  Every delimiter the program looks at (the
literal parts of the issue pattern, the class boundaries `>`, `"`, `<`, the
digits and the line feed) is ASCII, so the development reads the same whether
a symbol stands for a byte or for a decoded rune.
-/

set_option maxRecDepth 1000000

namespace BadOmenScout

/-- Text: Go's `string`. -/
abbrev Str := List Char

/-! ## The regular expression of `parseIssues` -/

/-- The constructs `issueRegexp` is built from, in sequence: literal text,
a greedy starred class such as `[^>]*`, and a capturing group around a greedy
plussed class such as `(\d+)` or `([^"]+)`. -/
inductive Item where
  | lit (s : Str)
  | star (cls : Char → Bool)
  | plusGroup (cls : Char → Bool)

/-- Consume the literal `l` at the start of `s`. -/
def dropLit : Str → Str → Option Str
  | [], s => some s
  | _ :: _, [] => none
  | c :: l, d :: s => if c = d then dropLit l s else none

/-- Greedy repetition with backtracking: try the continuation after `n`
symbols, then `n - 1`, down to `lo`; the first success wins. -/
def greedy {α : Type} (f : Nat → Option α) (lo : Nat) : Nat → Option α
  | 0 => if lo = 0 then f 0 else none
  | n + 1 =>
    if n + 1 < lo then none
    else match f (n + 1) with
      | some r => some r
      | none => greedy f lo n

/-- Match a sequence of items at the start of `s` with the priorities of a
backtracking search (Go's leftmost-first semantics): the captured groups in
order and the unconsumed rest. -/
def matchItems : List Item → Str → Option (List Str × Str)
  | [], s => some ([], s)
  | Item.lit l :: items, s =>
    match dropLit l s with
    | some s1 => matchItems items s1
    | none => none
  | Item.star cls :: items, s =>
    greedy (fun k => matchItems items (s.drop k)) 0 (s.takeWhile cls).length
  | Item.plusGroup cls :: items, s =>
    greedy (fun k => (matchItems items (s.drop k)).map
      (fun r => (s.take k :: r.1, r.2))) 1 (s.takeWhile cls).length

/-- Leftmost match in `s`: the skipped text, the submatches (index 0 the whole
match, then the groups) and the text after the match. -/
def findFirst (items : List Item) : Str → Option (Str × List Str × Str)
  | [] => none
  | c :: cs =>
    match matchItems items (c :: cs) with
    | some (caps, rest) =>
      some ([], (c :: cs).take ((c :: cs).length - rest.length) :: caps, rest)
    | none => (findFirst items cs).map (fun r => (c :: r.1, r.2.1, r.2.2))

/-- The loop of `FindAllStringSubmatch`: take the leftmost match, continue
after its end. -/
def findAllFuel (items : List Item) : Nat → Str → List (List Str)
  | 0, _ => []
  | fuel + 1, s =>
    match findFirst items s with
    | none => []
    | some (_, m, rest) => m :: findAllFuel items fuel rest

/-- Go's `re.FindAllStringSubmatch(s, -1)` for a pattern that cannot match the
empty string (every match consumes a symbol, so `s.length` rounds suffice). -/
def FindAllStringSubmatch (items : List Item) (s : Str) : List (List Str) :=
  findAllFuel items s.length s

/-- Class `\d`: ASCII digits. -/
def isDigit (c : Char) : Bool := decide ('0' ≤ c ∧ c ≤ '9')

/-- Class `[^x]`. -/
def notChar (x : Char) (c : Char) : Bool := decide (c ≠ x)

def litOpen : Str := "<a id=\"issue_".toList

def litClass : Str :=
  "_link\" class=\"Link--primary v-align-middle no-underline h4 js-navigation-open markdown-title\" ".toList

def litHref : Str := "href=\"".toList

def litClose : Str := "</a>".toList

/-- The pattern compiled in `parseIssues`. -/
def issueRegexp : List Item :=
  [ Item.lit litOpen, Item.plusGroup isDigit, Item.lit litClass,
    Item.star (notChar '>'), Item.lit litHref, Item.plusGroup (notChar '"'),
    Item.lit ['"'], Item.star (notChar '>'), Item.lit ['>'],
    Item.plusGroup (notChar '<'), Item.lit litClose ]


/-! ## Configuration, environment and observable events -/

/-- The package-level flags of `main.go` that the cycle reads. -/
structure Config where
  repoURL : Str
  discordWebhookURL : Str
  googleChatWebhookURL : Str
  cacheFile : Str

/-- Delay between successive notifications, in milliseconds. -/
def rateLimitDelay : Nat := 500

/-- What `http.Post` returns: a transport error, or a response with its status
code and status line. -/
inductive HttpResult where
  | error (msg : Str)
  | response (statusCode : Nat) (status : Str)

/-- What `http.Get` followed by `io.ReadAll` returns: a transport error, or a
response whose body either fails to read or reads as text. -/
inductive GetResult where
  | error (msg : Str)
  | response (statusCode : Nat) (body : Except Str Str)

/-- What `os.ReadFile` returns. -/
inductive ReadResult where
  | notExist
  | failed (msg : Str)
  | ok (data : Str)

/-- Everything outside the program that one cycle depends on. -/
structure Env where
  /-- outcome of the GET of the listing page -/
  get : GetResult
  /-- a read error other than not-exist, when the file system raises one -/
  readErr : Option Str
  /-- outcome of the k-th POST of the cycle -/
  webhook : Nat → HttpResult
  /-- order in which `range` visits the keys of the map -/
  rangeOrder : List Str → List Str
  /-- error of `os.MkdirAll`, if any -/
  mkdirErr : Option Str
  /-- error of `os.WriteFile`, if any, with what the file holds afterwards -/
  writeErr : Option (Str × Option Str)

/-- The JSON object handed to `json.Marshal` (a `map[string]string`, for which
`Marshal` is total): its fields in order. -/
abbrev Payload := List (Str × Str)

/-- Observable actions of the program, in the order they happen. -/
inductive Event where
  | log (line : Str)
  | httpGet (url : Str)
  | httpPost (url : Str) (contentType : Str) (body : Payload)
  | readFile (name : Str)
  | mkdirAllDirOf (name : Str)
  | writeFile (name : Str) (data : Str)
  | sleep (ms : Nat)
  deriving DecidableEq

/-- An extracted issue: `issueID`, `issueURL`, `issueTitle`. -/
structure Issue where
  id : Str
  url : Str
  title : Str
  deriving DecidableEq

/-! ## Dedupe store -/

/-- The map `map[string]bool` of the program (only `true` is ever stored):
its keys, each once. -/
abbrev Cache := List Str

/-- The assignment `cache[k] = true`. -/
def mapSet (cache : Cache) (k : Str) : Cache :=
  if k ∈ cache then cache else cache ++ [k]

/-- Go's `strings.Split(s, sep)` for a one-symbol separator. -/
def stringsSplit (sep : Char) : Str → List Str
  | [] => [[]]
  | c :: cs =>
    if c = sep then [] :: stringsSplit sep cs
    else match stringsSplit sep cs with
      | [] => [[c]]
      | l :: ls => (c :: l) :: ls

/-- Go's `strings.Join(elems, sep)`. -/
def stringsJoin (sep : Str) : List Str → Str
  | [] => []
  | [a] => a
  | a :: b :: rest => a ++ sep ++ stringsJoin sep (b :: rest)

/-- The loop of `loadCache` over the lines. -/
def loadLines : List Str → Cache → Cache
  | [], cache => cache
  | line :: lines, cache =>
    if line ≠ [] then loadLines lines (mapSet cache line) else loadLines lines cache

/-- The function `loadCache`, given what `os.ReadFile(filename)` returned. -/
def loadCache : ReadResult → Except Str Cache
  | ReadResult.notExist => Except.ok []
  | ReadResult.failed msg => Except.error msg
  | ReadResult.ok data => Except.ok (loadLines (stringsSplit '\n' data) [])

/-- Reading the stored file when the file system raises no error (`none`: no
such file). -/
def readStored : Option Str → ReadResult
  | none => ReadResult.notExist
  | some data => ReadResult.ok data

/-- The read `os.ReadFile(cacheFile)` against the stored file. -/
def osReadFile (env : Env) (storage : Option Str) : ReadResult :=
  match env.readErr with
  | some msg => ReadResult.failed msg
  | none => readStored storage

/-- The text `saveCache` writes: the keys in iteration order, joined by line
feeds. -/
def saveCacheData (env : Env) (cache : Cache) : Str :=
  stringsJoin ['\n'] (env.rangeOrder cache)

/-- The function `saveCache`: its events, its error if any, and the stored
file afterwards. -/
def saveCache (cfg : Config) (env : Env) (cache : Cache) (storage : Option Str) :
    List Event × Option Str × Option Str :=
  match env.mkdirErr with
  | some msg => ([Event.mkdirAllDirOf cfg.cacheFile], some msg, storage)
  | none =>
    let data := saveCacheData env cache
    match env.writeErr with
    | some (msg, left) =>
      ([Event.mkdirAllDirOf cfg.cacheFile, Event.writeFile cfg.cacheFile data], some msg, left)
    | none =>
      ([Event.mkdirAllDirOf cfg.cacheFile, Event.writeFile cfg.cacheFile data], none, some data)

/-! ## Notifier -/

/-- The message both notifiers format with `fmt.Sprintf`. -/
def formatMessage (issueTitle issueURL : Str) : Str :=
  "New Issue Created:\n\nTitle: ".toList ++ issueTitle ++ "\nURL: ".toList ++ issueURL

def applicationJson : Str := "application/json".toList

/-- The function `notifyDiscord`, given the outcome `r` of its `http.Post`. -/
def notifyDiscord (cfg : Config) (issueTitle issueURL : Str) (r : HttpResult) : List Event :=
  let message := formatMessage issueTitle issueURL
  let payload : Payload := [("content".toList, message)]
  Event.httpPost cfg.discordWebhookURL applicationJson payload ::
    match r with
    | HttpResult.error msg => [Event.log ("Error sending to Discord: ".toList ++ msg)]
    | HttpResult.response statusCode status =>
      if statusCode ≠ 204 then
        [Event.log ("Non-204 response from Discord: ".toList ++ status)]
      else [Event.log "Message successfully sent to Discord".toList]

/-- The function `notifyGoogleChat`, given the outcome `r` of its `http.Post`. -/
def notifyGoogleChat (cfg : Config) (issueTitle issueURL : Str) (r : HttpResult) : List Event :=
  let message := formatMessage issueTitle issueURL
  let payload : Payload := [("text".toList, message)]
  Event.httpPost cfg.googleChatWebhookURL applicationJson payload ::
    match r with
    | HttpResult.error msg => [Event.log ("Error sending to Google Chat: ".toList ++ msg)]
    | HttpResult.response statusCode status =>
      if statusCode ≠ 200 then
        [Event.log ("Non-200 response from Google Chat: ".toList ++ status)]
      else [Event.log "Message successfully sent to Google Chat".toList]

/-- The function `notify`; `k` counts the POSTs made so far in the cycle.
Returns the events and the new count. -/
def notify (cfg : Config) (webhook : Nat → HttpResult) (k : Nat) (issueTitle issueURL : Str) :
    List Event × Nat :=
  let d : List Event × Nat :=
    if cfg.discordWebhookURL ≠ [] then
      (notifyDiscord cfg issueTitle issueURL (webhook k), k + 1)
    else ([], k)
  let g : List Event × Nat :=
    if cfg.googleChatWebhookURL ≠ [] then
      (notifyGoogleChat cfg issueTitle issueURL (webhook d.2), d.2 + 1)
    else ([], d.2)
  (d.1 ++ g.1, g.2)

/-! ## The cycle -/

/-- Host prefixed to every href. -/
def sourceHost : Str := "https://github.com".toList

/-- The three fields `parseIssues` reads off a match. -/
def toIssue (m : List Str) : Issue :=
  { id := m.getD 1 [], url := sourceHost ++ m.getD 2 [], title := m.getD 3 [] }

/-- State of the loop over the matches. -/
structure LoopState where
  cache : Cache
  /-- events so far -/
  events : List Event
  /-- calls of `notify` so far, by issue -/
  notified : List Issue
  /-- POSTs so far -/
  posts : Nat

def issueFields (i : Issue) : Str :=
  "ID=".toList ++ i.id ++ ", Title=".toList ++ i.title ++ ", URL=".toList ++ i.url

/-- The `for _, match := range matches` loop of `parseIssues`. -/
def processMatches (cfg : Config) (webhook : Nat → HttpResult) :
    List (List Str) → LoopState → LoopState
  | [], st => st
  | m :: ms, st =>
    let issue := toIssue m
    if issue.id ∈ st.cache then
      processMatches cfg webhook ms
        { st with events := st.events ++
            [Event.log ("Issue already notified: ".toList ++ issueFields issue)] }
    else
      let n := notify cfg webhook st.posts issue.title issue.url
      processMatches cfg webhook ms
        { cache := mapSet st.cache issue.id
          events := st.events ++
            [Event.log ("Found new issue: ".toList ++ issueFields issue)] ++ n.1 ++
            [Event.sleep rateLimitDelay]
          notified := st.notified ++ [issue]
          posts := n.2 }

/-- What one run leaves behind. -/
structure Outcome where
  /-- observable actions in order -/
  events : List Event
  /-- issues for which `notify` was called, in order -/
  notified : List Issue
  /-- the map handed to `saveCache`, when it was called -/
  saved : Option Cache
  /-- the stored cache file afterwards -/
  storage : Option Str

/-- The function `parseIssues` on the page text, against the stored cache file. -/
def parseIssues (cfg : Config) (env : Env) (html : Str) (storage : Option Str) : Outcome :=
  let ms := FindAllStringSubmatch issueRegexp html
  let ev0 : List Event :=
    [Event.log ("Found ".toList ++ (Nat.repr ms.length).toList ++ " matches".toList),
     Event.readFile cfg.cacheFile]
  match loadCache (osReadFile env storage) with
  | Except.error msg =>
    { events := ev0 ++ [Event.log ("Error loading cache: ".toList ++ msg)]
      notified := [], saved := none, storage := storage }
  | Except.ok cache =>
    let st := processMatches cfg env.webhook ms
      { cache := cache, events := ev0, notified := [], posts := 0 }
    let sv := saveCache cfg env st.cache storage
    { events := st.events ++ sv.1 ++
        (match sv.2.1 with
         | some msg => [Event.log ("Error saving cache: ".toList ++ msg)]
         | none => [])
      notified := st.notified, saved := some st.cache, storage := sv.2.2 }

/-- The function `checkForNewIssues`: one cycle. -/
def checkForNewIssues (cfg : Config) (env : Env) (storage : Option Str) : Outcome :=
  let ev0 : List Event :=
    [Event.log "Checking for new issues...".toList, Event.httpGet cfg.repoURL]
  match env.get with
  | GetResult.error msg =>
    { events := ev0 ++ [Event.log ("Error fetching issues: ".toList ++ msg)]
      notified := [], saved := none, storage := storage }
  | GetResult.response statusCode body =>
    if statusCode ≠ 200 then
      { events := ev0 ++ [Event.log ("Error fetching issues: received status code ".toList ++
          (Nat.repr statusCode).toList)]
        notified := [], saved := none, storage := storage }
    else
      match body with
      | Except.error msg =>
        { events := ev0 ++ [Event.log ("Error reading response body: ".toList ++ msg)]
          notified := [], saved := none, storage := storage }
      | Except.ok text =>
        let o := parseIssues cfg env text storage
        { o with events := ev0 ++ [Event.log "Parsing issues...".toList] ++ o.events }

/-- The loop of `main` over a finite run: the cycles' outcomes in order, each
cycle starting from the storage the previous one left, and the storage after
the last. -/
def runCycles (cfg : Config) : List Env → Option Str → List Outcome × Option Str
  | [], storage => ([], storage)
  | env :: envs, storage =>
    let o := checkForNewIssues cfg env storage
    let r := runCycles cfg envs o.storage
    (o :: r.1, r.2)

/-- The fetch of a cycle failed: transport error, status other than 200, or
body read error. -/
def fetchFailed : GetResult → Bool
  | GetResult.error _ => true
  | GetResult.response statusCode body =>
    statusCode ≠ 200 || (match body with
      | Except.error _ => true
      | Except.ok _ => false)

/-- The save of a cycle succeeds: neither `os.MkdirAll` nor `os.WriteFile`
returns an error. -/
def SaveSucceeds (env : Env) : Prop :=
  env.mkdirErr = none ∧ env.writeErr = none

/-- The statement `for id := range cache` visits each key exactly once, in some
order. -/
def RangeVisitsKeys (env : Env) : Prop :=
  ∀ l, (env.rangeOrder l).Perm l

/-- The identifiers of a list of issues. -/
def ids (l : List Issue) : List Str := l.map (fun i => i.id)

/-- The extractor: the issues of the matches, in the order `parseIssues`
visits them. -/
def extractIssues (html : Str) : List Issue :=
  (FindAllStringSubmatch issueRegexp html).map toIssue

/-- The POSTs among the events, in order. -/
def postsOf (evs : List Event) : List Event :=
  evs.filter (fun e => match e with
    | Event.httpPost _ _ _ => true
    | _ => false)

/-! ## Sample data -/

def sampleHtml : Str :=
  ("<div><a id=\"issue_101_link\" class=\"Link--primary v-align-middle no-underline h4 js-navigation-open markdown-title\" data-hovercard-type=\"issue\" href=\"/o/r/issues/101\">Fix crash</a></div>\n" ++
   "<div><a id=\"issue_102_link\" class=\"Link--primary v-align-middle no-underline h4 js-navigation-open markdown-title\" data-hovercard-type=\"issue\" href=\"/o/r/issues/102\">Add docs</a></div>").toList

/-- An anchor with the class, href and text of an issue entry but no
`id="issue_N_link"` attribute. -/
def sampleNoId : Str :=
  "<div><a class=\"Link--primary v-align-middle no-underline h4 js-navigation-open markdown-title\" href=\"/o/r/issues/7\">No id</a></div>".toList

/-- The first entry of `sampleHtml` as an issue. -/
def sampleIssue : Issue :=
  { id := "101".toList, url := "https://github.com/o/r/issues/101".toList,
    title := "Fix crash".toList }

def sampleConfig : Config :=
  { repoURL := "https://github.com/o/r/issues".toList
    discordWebhookURL := "https://discord.example/hook".toList
    googleChatWebhookURL := []
    cacheFile := ".local/cache/issue_cache.txt".toList }

def sampleEnv : Env :=
  { get := GetResult.response 200 (Except.ok sampleHtml)
    readErr := none
    webhook := fun _ => HttpResult.response 204 "204 No Content".toList
    rangeOrder := fun l => l
    mkdirErr := none
    writeErr := none }

/-! ## Declarative reading of the pattern -/

/-- Declarative matching: `items` match a prefix of `s`, capturing `caps` and
leaving `rest`, with no regard to priorities. -/
def Matches : List Item → Str → List Str → Str → Prop
  | [], s, caps, rest => caps = [] ∧ rest = s
  | Item.lit l :: items, s, caps, rest => ∃ s1, s = l ++ s1 ∧ Matches items s1 caps rest
  | Item.star cls :: items, s, caps, rest =>
    ∃ a s1, s = a ++ s1 ∧ (∀ c ∈ a, cls c = true) ∧ Matches items s1 caps rest
  | Item.plusGroup cls :: items, s, caps, rest =>
    ∃ a s1 caps1, s = a ++ s1 ∧ a ≠ [] ∧ (∀ c ∈ a, cls c = true) ∧ caps = a :: caps1 ∧
      Matches items s1 caps1 rest

/-- The match a backtracking search finds first: as `Matches`, and every
repetition is the longest one after which the remaining items still match. -/
def Preferred : List Item → Str → List Str → Str → Prop
  | [], s, caps, rest => caps = [] ∧ rest = s
  | Item.lit l :: items, s, caps, rest => ∃ s1, s = l ++ s1 ∧ Preferred items s1 caps rest
  | Item.star cls :: items, s, caps, rest =>
    ∃ a s1, s = a ++ s1 ∧ (∀ c ∈ a, cls c = true) ∧ Preferred items s1 caps rest ∧
      ∀ a2 s2 caps2 rest2, s = a2 ++ s2 → (∀ c ∈ a2, cls c = true) → a.length < a2.length →
        ¬ Matches items s2 caps2 rest2
  | Item.plusGroup cls :: items, s, caps, rest =>
    ∃ a s1 caps1, s = a ++ s1 ∧ a ≠ [] ∧ (∀ c ∈ a, cls c = true) ∧ caps = a :: caps1 ∧
      Preferred items s1 caps1 rest ∧
      ∀ a2 s2 caps2 rest2, s = a2 ++ s2 → (∀ c ∈ a2, cls c = true) → a.length < a2.length →
        ¬ Matches items s2 caps2 rest2

/-- The text of an anchor of the exact shape: identifier digits `n`, further
attributes `a` before the href, href value `h`, further attributes `b` after
it, inner text `t`. -/
def anchorText (n a h b t : Str) : Str :=
  litOpen ++ (n ++ (litClass ++ (a ++ (litHref ++ (h ++ ('"' :: (b ++ ('>' :: (t ++ litClose)))))))))

/-- Side conditions on the parts of an anchor of the exact shape. -/
def AnchorParts (n a h b t : Str) : Prop :=
  n ≠ [] ∧ (∀ c ∈ n, '0' ≤ c ∧ c ≤ '9') ∧ '>' ∉ a ∧ h ≠ [] ∧ '"' ∉ h ∧ '>' ∉ b ∧
    t ≠ [] ∧ '<' ∉ t

/-- The fragment `m` is an anchor of the exact shape and `i` is the issue it
describes. -/
def AnchorShape (m : Str) (i : Issue) : Prop :=
  ∃ n a h b t, m = anchorText n a h b t ∧ AnchorParts n a h b t ∧
    i = { id := n, url := sourceHost ++ h, title := t }

/-- The issues `is` are those of the anchors of the exact shape in `s`, found
left to right: each anchor starts at the first position after the previous one
where an anchor of the shape starts, and none starts after the last. -/
inductive InDocumentOrder : Str → List Issue → Prop where
  | done (s : Str) :
      (∀ u m r i, s = u ++ (m ++ r) → ¬ AnchorShape m i) → InDocumentOrder s []
  | step (gap m rest : Str) (i : Issue) (is : List Issue) :
      (∀ u v m2 r2 i2, gap = u ++ v → v ≠ [] → v ++ (m ++ rest) = m2 ++ r2 →
        ¬ AnchorShape m2 i2) →
      AnchorShape m i → InDocumentOrder rest is →
      InDocumentOrder (gap ++ (m ++ rest)) (i :: is)

/-! ## Declarative reading of the loop -/

/-- Keep, of the entries with the same identifier, the first one. -/
def firstById : List Issue → List Issue
  | [] => []
  | i :: l => i :: (firstById l).filter (fun j => decide (j.id ≠ i.id))

/-- The POSTs one call of `notify` makes: one per configured target, Discord
first. -/
def notifyPosts (cfg : Config) (issueTitle issueURL : Str) : List Event :=
  (if cfg.discordWebhookURL ≠ [] then
    [Event.httpPost cfg.discordWebhookURL applicationJson
      [("content".toList, formatMessage issueTitle issueURL)]]
   else []) ++
  (if cfg.googleChatWebhookURL ≠ [] then
    [Event.httpPost cfg.googleChatWebhookURL applicationJson
      [("text".toList, formatMessage issueTitle issueURL)]]
   else [])

/-- A key as `loadCache` produces them and as the pattern captures them: not
empty, no line feed. -/
def LineLike (x : Str) : Prop := x ≠ [] ∧ '\n' ∉ x

end BadOmenScout

namespace BadOmenScout

/-! ## Lemmas on the matcher -/

theorem dropLit_eq_some (l s r : Str) : dropLit l s = some r ↔ s = l ++ r := by
  induction l generalizing s with
  | nil => simp [dropLit, eq_comm]
  | cons c l ih =>
    cases s with
    | nil => simp [dropLit]
    | cons d s =>
      by_cases h : c = d
      · subst h; simp [dropLit, ih]
      · have h2 : ¬ d = c := fun e => h e.symm
        simp [dropLit, h, h2]

theorem greedy_sound {α : Type} (f : Nat → Option α) (lo n : Nat) (r : α)
    (h : greedy f lo n = some r) :
    ∃ k, lo ≤ k ∧ k ≤ n ∧ f k = some r ∧ ∀ j, k < j → j ≤ n → f j = none := by
  induction n with
  | zero =>
    by_cases hlo : lo = 0
    · simp [greedy, hlo] at h
      exact ⟨0, by omega, le_refl _, h, fun j h1 h2 => by omega⟩
    · simp [greedy, hlo] at h
  | succ n ih =>
    unfold greedy at h
    by_cases hlt : n + 1 < lo
    · simp [hlt] at h
    · simp only [hlt, if_false] at h
      cases hf : f (n + 1) with
      | some r2 =>
        rw [hf] at h
        simp only [Option.some.injEq] at h
        subst h
        exact ⟨n + 1, by omega, le_refl _, hf, fun j h1 h2 => by omega⟩
      | none =>
        rw [hf] at h
        obtain ⟨k, h1, h2, h3, h4⟩ := ih h
        refine ⟨k, h1, by omega, h3, fun j hj1 hj2 => ?_⟩
        by_cases hj : j = n + 1
        · subst hj; exact hf
        · exact h4 j hj1 (by omega)

theorem greedy_complete {α : Type} (f : Nat → Option α) (lo n k : Nat)
    (h1 : lo ≤ k) (h2 : k ≤ n) (h3 : f k ≠ none) : greedy f lo n ≠ none := by
  induction n with
  | zero =>
    have hk : k = 0 := by omega
    subst hk
    have hlo : lo = 0 := by omega
    simp [greedy, hlo, h3]
  | succ n ih =>
    unfold greedy
    have hlt : ¬ n + 1 < lo := by omega
    simp only [hlt, if_false]
    cases hf : f (n + 1) with
    | some r2 => simp
    | none =>
      have hk : k ≤ n := by
        by_contra hc
        have : k = n + 1 := by omega
        subst this
        exact h3 hf
      exact ih hk

theorem take_mem_of_le_takeWhile (cls : Char → Bool) (s : Str) (k : Nat)
    (hk : k ≤ (s.takeWhile cls).length) : ∀ c ∈ s.take k, cls c = true := by
  intro c hc
  obtain ⟨t, ht⟩ := List.takeWhile_prefix cls (l := s)
  have h1 : s.take k = (s.takeWhile cls).take k := by
    conv_lhs => rw [← ht]
    exact List.take_append_of_le_length hk
  rw [h1] at hc
  exact List.mem_takeWhile_imp (List.mem_of_mem_take hc)

theorem length_le_takeWhile (cls : Char → Bool) (a s1 : Str)
    (ha : ∀ c ∈ a, cls c = true) : a.length ≤ ((a ++ s1).takeWhile cls).length := by
  rw [List.takeWhile_append_of_pos ha]
  simp

theorem Preferred.matches {items : List Item} {s : Str} {caps : List Str} {rest : Str}
    (h : Preferred items s caps rest) : Matches items s caps rest := by
  induction items generalizing s caps rest with
  | nil => exact h
  | cons it items ih =>
    cases it with
    | lit l =>
      obtain ⟨s1, h1, h2⟩ := h
      exact ⟨s1, h1, ih h2⟩
    | star cls =>
      obtain ⟨a, s1, h1, h2, h3, _⟩ := h
      exact ⟨a, s1, h1, h2, ih h3⟩
    | plusGroup cls =>
      obtain ⟨a, s1, caps1, h1, h2, h3, h4, h5, _⟩ := h
      exact ⟨a, s1, caps1, h1, h2, h3, h4, ih h5⟩

theorem matchItems_complete (items : List Item) (s : Str) (caps : List Str) (rest : Str)
    (h : Matches items s caps rest) : matchItems items s ≠ none := by
  induction items generalizing s caps rest with
  | nil => simp [matchItems]
  | cons it items ih =>
    cases it with
    | lit l =>
      obtain ⟨s1, h1, h2⟩ := h
      have hd : dropLit l s = some s1 := (dropLit_eq_some l s s1).2 h1
      simp only [matchItems, hd]
      exact ih s1 caps rest h2
    | star cls =>
      obtain ⟨a, s1, h1, h2, h3⟩ := h
      subst h1
      simp only [matchItems]
      apply greedy_complete _ 0 _ a.length (Nat.zero_le _) (length_le_takeWhile cls a s1 h2)
      simp only [List.drop_left]
      exact ih s1 caps rest h3
    | plusGroup cls =>
      obtain ⟨a, s1, caps1, h1, h2, h3, h4, h5⟩ := h
      subst h1
      simp only [matchItems]
      have hpos : 1 ≤ a.length := by
        cases a with
        | nil => exact absurd rfl h2
        | cons _ _ => simp
      apply greedy_complete _ 1 _ a.length hpos (length_le_takeWhile cls a s1 h3)
      simp only [List.drop_left]
      have := ih s1 caps1 rest h5
      cases hm : matchItems items s1 with
      | none => exact absurd hm this
      | some r => simp

theorem matchItems_sound (items : List Item) (s : Str) (caps : List Str) (rest : Str)
    (h : matchItems items s = some (caps, rest)) : Preferred items s caps rest := by
  induction items generalizing s caps rest with
  | nil =>
    simp only [matchItems, Option.some.injEq, Prod.mk.injEq] at h
    exact ⟨h.1.symm, h.2.symm⟩
  | cons it items ih =>
    cases it with
    | lit l =>
      simp only [matchItems] at h
      cases hd : dropLit l s with
      | none => rw [hd] at h; exact absurd h (by simp)
      | some s1 =>
        rw [hd] at h
        exact ⟨s1, (dropLit_eq_some l s s1).1 hd, ih s1 caps rest h⟩
    | star cls =>
      simp only [matchItems] at h
      obtain ⟨k, _, hk, hf, hmax⟩ := greedy_sound _ _ _ _ h
      refine ⟨s.take k, s.drop k, (List.take_append_drop k s).symm,
        take_mem_of_le_takeWhile cls s k hk, ih _ caps rest hf, ?_⟩
      intro a2 s2 caps2 rest2 hs ha2 hlen hm
      subst hs
      have hk2 : k ≤ a2.length + s2.length := by
        have := (List.takeWhile_prefix cls (l := a2 ++ s2)).length_le
        simp only [List.length_append] at this
        omega
      have hlen2 : k < a2.length := by
        simpa [List.length_take, Nat.min_eq_left hk2] using hlen
      have := hmax a2.length hlen2 (length_le_takeWhile cls a2 s2 ha2)
      simp only [List.drop_left] at this
      exact matchItems_complete items s2 caps2 rest2 hm this
    | plusGroup cls =>
      simp only [matchItems] at h
      obtain ⟨k, hlo, hk, hf, hmax⟩ := greedy_sound _ _ _ _ h
      cases hm : matchItems items (s.drop k) with
      | none => rw [hm] at hf; exact absurd hf (by simp)
      | some r =>
        obtain ⟨caps1, rest1⟩ := r
        rw [hm] at hf
        simp only [Option.map_some', Option.some.injEq, Prod.mk.injEq] at hf
        obtain ⟨hc, hr⟩ := hf
        subst hr
        have hk2 : k ≤ s.length := le_trans hk (List.takeWhile_prefix cls (l := s)).length_le
        refine ⟨s.take k, s.drop k, caps1, (List.take_append_drop k s).symm, ?_,
          take_mem_of_le_takeWhile cls s k hk, hc.symm, ih _ caps1 rest1 hm, ?_⟩
        · intro he
          have : (s.take k).length = 0 := by rw [he]; rfl
          rw [List.length_take, Nat.min_eq_left hk2] at this
          omega
        · intro a2 s2 caps2 rest2 hs ha2 hlen hm2
          subst hs
          have hlen2 : k < a2.length := by
            simpa [List.length_take, Nat.min_eq_left hk2] using hlen
          have := hmax a2.length hlen2 (length_le_takeWhile cls a2 s2 ha2)
          simp only [List.drop_left] at this
          have h3 := matchItems_complete items s2 caps2 rest2 hm2
          cases hm3 : matchItems items s2 with
          | none => exact h3 hm3
          | some r3 => rw [hm3] at this; exact absurd this (by simp)

theorem notChar_all (x : Char) (a : Str) : (∀ c ∈ a, notChar x c = true) ↔ x ∉ a := by
  simp only [notChar, decide_eq_true_eq]
  constructor
  · intro h hx; exact h x hx rfl
  · intro h c hc e; subst e; exact h hc

theorem isDigit_all (n : Str) : (∀ c ∈ n, isDigit c = true) ↔ ∀ c ∈ n, '0' ≤ c ∧ c ≤ '9' := by
  simp [isDigit]

theorem matches_issueRegexp (s : Str) (caps : List Str) (rest : Str) :
    Matches issueRegexp s caps rest ↔
      ∃ n a h b t, s = anchorText n a h b t ++ rest ∧ AnchorParts n a h b t ∧
        caps = [n, h, t] := by
  simp only [Matches, issueRegexp, notChar_all, isDigit_all]
  constructor
  · rintro ⟨s1, rfl, n, s2, c1, rfl, hn, hnd, rfl, s3, rfl, a, s4, rfl, ha, s5, rfl,
      h, s6, c2, rfl, hh, hhq, rfl, s7, rfl, b, s8, rfl, hb, s9, rfl, t, s10, c3, rfl, ht, htl,
      rfl, s11, rfl, rfl, rfl⟩
    exact ⟨n, a, h, b, t, by simp [anchorText], ⟨hn, hnd, ha, hh, hhq, hb, ht, htl⟩, rfl⟩
  · rintro ⟨n, a, h, b, t, rfl, ⟨hn, hnd, ha, hh, hhq, hb, ht, htl⟩, rfl⟩
    exact ⟨_, by simp [anchorText], n, _, _, rfl, hn, hnd, rfl,
      _, rfl, a, _, rfl, ha, _, rfl, h, _, _, rfl, hh, hhq, rfl, _, rfl, b, _, rfl, hb, _, rfl,
      t, _, _, rfl, ht, htl, rfl, _, rfl, rfl, rfl⟩

theorem anchorText_ne_nil (n a h b t : Str) : anchorText n a h b t ≠ [] := by
  simp [anchorText, litOpen]

theorem anchorShape_matches (m r : Str) (i : Issue) (h : AnchorShape m i) :
    matchItems issueRegexp (m ++ r) ≠ none := by
  obtain ⟨n, a, hr, b, t, rfl, hp, _⟩ := h
  exact matchItems_complete issueRegexp _ [n, hr, t] r
    ((matches_issueRegexp _ _ _).2 ⟨n, a, hr, b, t, rfl, hp, rfl⟩)

theorem matchItems_issueRegexp_some (s : Str) (caps : List Str) (rest : Str)
    (h : matchItems issueRegexp s = some (caps, rest)) :
    ∃ n a hr b t, s = anchorText n a hr b t ++ rest ∧ AnchorParts n a hr b t ∧
      caps = [n, hr, t] :=
  (matches_issueRegexp s caps rest).1 (matchItems_sound issueRegexp s caps rest h).matches

theorem findFirst_none (items : List Item) (s : Str) (h : findFirst items s = none) :
    ∀ u v, s = u ++ v → v ≠ [] → matchItems items v = none := by
  induction s with
  | nil =>
    intro u v huv hv
    have : v = [] := by
      cases u with
      | nil => simpa using huv.symm
      | cons _ _ => simp at huv
    exact absurd this hv
  | cons c cs ih =>
    simp only [findFirst] at h
    cases hm : matchItems items (c :: cs) with
    | some r => rw [hm] at h; simp at h
    | none =>
      rw [hm] at h
      simp only [Option.map_eq_none'] at h
      intro u v huv hv
      cases u with
      | nil => simp only [List.nil_append] at huv; rw [← huv]; exact hm
      | cons d u =>
        simp only [List.cons_append, List.cons.injEq] at huv
        exact ih h u v huv.2 hv

theorem findFirst_some (items : List Item) (s gap : Str) (m : List Str) (rest : Str)
    (h : findFirst items s = some (gap, m, rest)) :
    ∃ s1 caps, s = gap ++ s1 ∧ matchItems items s1 = some (caps, rest) ∧
      m = s1.take (s1.length - rest.length) :: caps ∧
      ∀ u v, gap = u ++ v → v ≠ [] → matchItems items (v ++ s1) = none := by
  induction s generalizing gap with
  | nil => simp [findFirst] at h
  | cons c cs ih =>
    simp only [findFirst] at h
    cases hm : matchItems items (c :: cs) with
    | some r =>
      obtain ⟨caps, rest1⟩ := r
      rw [hm] at h
      simp only [Option.some.injEq, Prod.mk.injEq] at h
      obtain ⟨h1, h2, h3⟩ := h
      subst h1 h3
      refine ⟨c :: cs, caps, rfl, hm, h2.symm, ?_⟩
      intro u v huv hv
      have : v = [] := by
        cases u with
        | nil => simpa using huv.symm
        | cons _ _ => simp at huv
      exact absurd this hv
    | none =>
      rw [hm] at h
      cases hf : findFirst items cs with
      | none => rw [hf] at h; simp at h
      | some r =>
        obtain ⟨gap1, m1, rest1⟩ := r
        rw [hf] at h
        simp only [Option.map_some', Option.some.injEq, Prod.mk.injEq] at h
        obtain ⟨h1, h2, h3⟩ := h
        subst h1 h2 h3
        obtain ⟨s1, caps, hs, hms, hm1, hgap⟩ := ih gap1 hf
        refine ⟨s1, caps, by rw [hs]; rfl, hms, hm1, ?_⟩
        intro u v huv hv
        cases u with
        | nil =>
          simp only [List.nil_append] at huv
          rw [← huv, List.cons_append, ← hs]
          exact hm
        | cons d u =>
          simp only [List.cons_append, List.cons.injEq] at huv
          exact hgap u v huv.2 hv

theorem toIssue_anchor (x n hr t : Str) :
    toIssue [x, n, hr, t] = { id := n, url := sourceHost ++ hr, title := t } := rfl

theorem findAllFuel_inDocumentOrder (fuel : Nat) (s : Str) (hfuel : s.length ≤ fuel) :
    InDocumentOrder s ((findAllFuel issueRegexp fuel s).map toIssue) := by
  induction fuel generalizing s with
  | zero =>
    have hs : s = [] := List.length_eq_zero.mp (by omega)
    subst hs
    apply InDocumentOrder.done
    intro u m r i hu hsh
    obtain ⟨n, a, hr, b, t, rfl, _, _⟩ := hsh
    have : anchorText n a hr b t = [] := by
      have h2 := congrArg List.length hu
      simp only [List.length_nil, List.length_append] at h2
      exact List.length_eq_zero.mp (by omega)
    exact anchorText_ne_nil _ _ _ _ _ this
  | succ fuel ih =>
    simp only [findAllFuel]
    cases hf : findFirst issueRegexp s with
    | none =>
      apply InDocumentOrder.done
      intro u m r i hu hsh
      have hne : m ++ r ≠ [] := by
        obtain ⟨n, a, hr, b, t, rfl, _, _⟩ := hsh
        simp [anchorText, litOpen]
      exact anchorShape_matches m r i hsh (findFirst_none issueRegexp s hf u (m ++ r) hu hne)
    | some x =>
      obtain ⟨gap, m, rest⟩ := x
      obtain ⟨s1, caps, hs, hms, hm1, hgap⟩ := findFirst_some issueRegexp s gap m rest hf
      obtain ⟨n, a, hr, b, t, hs1, hp, hcaps⟩ := matchItems_issueRegexp_some s1 caps rest hms
      have hm2 : m = [anchorText n a hr b t, n, hr, t] := by
        rw [hm1, hcaps, hs1]
        simp
      subst hs hs1 hm2
      simp only [List.map_cons, toIssue_anchor]
      apply InDocumentOrder.step
      · intro u v m2 r2 i2 hu hv he hsh
        have := hgap u v hu hv
        rw [he] at this
        exact anchorShape_matches m2 r2 i2 hsh this
      · exact ⟨n, a, hr, b, t, rfl, hp, rfl⟩
      · apply ih
        have hpos : 0 < (anchorText n a hr b t).length :=
          List.length_pos.mpr (anchorText_ne_nil _ _ _ _ _)
        simp only [List.length_append] at hfuel
        omega

theorem extractIssues_inDocumentOrder (html : Str) :
    InDocumentOrder html (extractIssues html) :=
  findAllFuel_inDocumentOrder html.length html (le_refl _)

theorem split_unique (P : Char → Prop) (c c2 : Char) (hc : ¬ P c) (hc2 : ¬ P c2)
    (u u2 x y : Str) (hu : ∀ d ∈ u, P d) (hu2 : ∀ d ∈ u2, P d)
    (h : u ++ c :: x = u2 ++ c2 :: y) : u = u2 ∧ c :: x = c2 :: y := by
  induction u generalizing u2 with
  | nil =>
    cases u2 with
    | nil => exact ⟨rfl, by simpa using h⟩
    | cons d u2 =>
      simp only [List.nil_append, List.cons_append, List.cons.injEq] at h
      exact absurd (h.1 ▸ hu2 d (List.mem_cons_self _ _)) hc
  | cons e u ih =>
    cases u2 with
    | nil =>
      simp only [List.nil_append, List.cons_append, List.cons.injEq] at h
      exact absurd (h.1 ▸ hu e (List.mem_cons_self _ _)) hc2
    | cons d u2 =>
      simp only [List.cons_append, List.cons.injEq] at h
      obtain ⟨h1, h2⟩ := ih u2 (fun d hd => hu d (List.mem_cons_of_mem _ hd))
        (fun d hd => hu2 d (List.mem_cons_of_mem _ hd)) h.2
      exact ⟨by rw [h.1, h1], h2⟩

theorem tail_matches (h b t rest : Str) (hp : h ≠ [] ∧ '"' ∉ h ∧ '>' ∉ b ∧ t ≠ [] ∧ '<' ∉ t) :
    Matches [Item.lit litHref, Item.plusGroup (notChar '"'), Item.lit ['"'],
      Item.star (notChar '>'), Item.lit ['>'], Item.plusGroup (notChar '<'), Item.lit litClose]
      (litHref ++ (h ++ ('"' :: (b ++ ('>' :: (t ++ (litClose ++ rest))))))) [h, t] rest := by
  simp only [Matches, notChar_all]
  obtain ⟨hh, hhq, hb, ht, htl⟩ := hp
  exact ⟨_, rfl, h, _, _, rfl, hh, hhq, rfl, _, rfl, b, _, rfl, hb, _, rfl, t, _, _, rfl, ht, htl,
    rfl, _, rfl, rfl, rfl⟩

theorem litClass_head : ∃ tl, litClass = '_' :: tl := ⟨litClass.tail, by decide⟩

theorem litClose_head : ∃ tl, litClose = '<' :: tl := ⟨litClose.tail, by decide⟩

/-- Any two readings of an anchor of the shape at the same place agree on the
identifier digits, and agree entirely when the text before the href has the
same length. -/
theorem anchor_readings (n a h b t post n2 a2 h2 b2 t2 post2 : Str)
    (hp : AnchorParts n a h b t) (hp2 : AnchorParts n2 a2 h2 b2 t2)
    (he : anchorText n a h b t ++ post = anchorText n2 a2 h2 b2 t2 ++ post2) :
    n2 = n ∧ a ++ (litHref ++ (h ++ ('"' :: (b ++ ('>' :: (t ++ (litClose ++ post))))))) =
        a2 ++ (litHref ++ (h2 ++ ('"' :: (b2 ++ ('>' :: (t2 ++ (litClose ++ post2))))))) ∧
      (a2.length = a.length → a2 = a ∧ h2 = h ∧ b2 = b ∧ t2 = t ∧ post2 = post) := by
  obtain ⟨_, hnd, _, _, hhq, hb, _, htl⟩ := hp
  obtain ⟨_, hnd2, _, _, hhq2, hb2, _, htl2⟩ := hp2
  simp only [anchorText, List.append_assoc, List.cons_append, List.append_cancel_left_eq] at he
  obtain ⟨tl, hcl⟩ := litClass_head
  rw [hcl] at he
  simp only [List.cons_append] at he
  have hund : ¬ ('0' ≤ '_' ∧ '_' ≤ '9') := by decide
  obtain ⟨h1, h2e⟩ := split_unique (fun c => '0' ≤ c ∧ c ≤ '9') '_' '_' hund hund
    n n2 _ _ hnd hnd2 he
  simp only [List.cons.injEq, true_and, List.append_cancel_left_eq] at h2e
  refine ⟨h1.symm, h2e, ?_⟩
  intro hlen
  obtain ⟨e1, e2⟩ := List.append_inj h2e hlen.symm
  simp only [List.append_cancel_left_eq] at e2
  obtain ⟨e3, e4⟩ := split_unique (fun c => c ≠ '"') '"' '"' (by simp) (by simp) h h2 _ _
    (fun d hd e => hhq (e ▸ hd)) (fun d hd e => hhq2 (e ▸ hd)) e2
  simp only [List.cons.injEq, true_and] at e4
  obtain ⟨e5, e6⟩ := split_unique (fun c => c ≠ '>') '>' '>' (by simp) (by simp) b b2 _ _
    (fun d hd e => hb (e ▸ hd)) (fun d hd e => hb2 (e ▸ hd)) e4
  simp only [List.cons.injEq, true_and] at e6
  obtain ⟨tl2, hcl2⟩ := litClose_head
  rw [hcl2] at e6
  simp only [List.cons_append] at e6
  obtain ⟨e7, e8⟩ := split_unique (fun c => c ≠ '<') '<' '<' (by simp) (by simp) t t2 _ _
    (fun d hd e => htl (e ▸ hd)) (fun d hd e => htl2 (e ▸ hd)) e6
  simp only [List.cons.injEq, true_and, List.cons_append, List.append_cancel_left_eq] at e8
  exact ⟨e1.symm, e3.symm, e5.symm, e7.symm, e8.symm⟩

/-- What a successful match at the start of `s` is: a reading of an anchor of
the shape, and among all such readings at this place the one whose href
starts last. -/
theorem matchItems_issueRegexp_preferred (s : Str) (caps : List Str) (rest : Str)
    (hm : matchItems issueRegexp s = some (caps, rest)) :
    ∃ n a h b t, s = anchorText n a h b t ++ rest ∧ AnchorParts n a h b t ∧
      caps = [n, h, t] ∧
      ∀ n2 a2 h2 b2 t2 post2, AnchorParts n2 a2 h2 b2 t2 →
        s = anchorText n2 a2 h2 b2 t2 ++ post2 → a2.length ≤ a.length := by
  have hpref := matchItems_sound issueRegexp s caps rest hm
  obtain ⟨s1, hs1, hpref1⟩ : ∃ s1, s = litOpen ++ s1 ∧ Preferred issueRegexp.tail s1 caps rest :=
    hpref
  obtain ⟨n, s2, caps1, hs2, hn, hnd, hcaps, hpref2, _⟩ :
      ∃ a s2 caps1, s1 = a ++ s2 ∧ a ≠ [] ∧ (∀ c ∈ a, isDigit c = true) ∧ caps = a :: caps1 ∧
        Preferred issueRegexp.tail.tail s2 caps1 rest ∧
        ∀ a2 s2 caps2 rest2, s1 = a2 ++ s2 → (∀ c ∈ a2, isDigit c = true) →
          a.length < a2.length → ¬ Matches issueRegexp.tail.tail s2 caps2 rest2 := hpref1
  obtain ⟨s3, hs3, hpref3⟩ :
      ∃ s3, s2 = litClass ++ s3 ∧ Preferred issueRegexp.tail.tail.tail s3 caps1 rest := hpref2
  obtain ⟨a, s4, hs4, ha, htail, hmax⟩ :
      ∃ a s4, s3 = a ++ s4 ∧ (∀ c ∈ a, notChar '>' c = true) ∧
        Preferred issueRegexp.tail.tail.tail.tail s4 caps1 rest ∧
        ∀ a2 s2 caps2 rest2, s3 = a2 ++ s2 → (∀ c ∈ a2, notChar '>' c = true) →
          a.length < a2.length → ¬ Matches issueRegexp.tail.tail.tail.tail s2 caps2 rest2 := hpref3
  have htm : Matches [Item.lit litHref, Item.plusGroup (notChar '"'), Item.lit ['"'],
      Item.star (notChar '>'), Item.lit ['>'], Item.plusGroup (notChar '<'), Item.lit litClose]
      s4 caps1 rest := htail.matches
  simp only [Matches, notChar_all] at htm
  obtain ⟨s5, hs5, h, s6, c2, hs6, hh, hhq, hc1, s7, hs7, b, s8, hs8, hb, s9, hs9,
    t, s10, c3, hs10, ht, htl, hc2, s11, hs11, hc3, hrest⟩ := htm
  have hp : AnchorParts n a h b t :=
    ⟨hn, (isDigit_all n).1 hnd, (notChar_all '>' a).1 ha, hh, hhq, hb, ht, htl⟩
  have hs3b : s3 = a ++ (litHref ++ (h ++ ('"' :: (b ++ ('>' :: (t ++ (litClose ++ rest))))))) := by
    subst hs4 hs5 hs6 hs7 hs8 hs9 hs10 hs11 hrest
    simp
  have hs0 : s = anchorText n a h b t ++ rest := by
    subst hs1 hs2 hs3
    rw [hs3b]
    simp [anchorText]
  refine ⟨n, a, h, b, t, hs0, hp, by subst hc3 hc2 hc1; exact hcaps, ?_⟩
  intro n2 a2 h2 b2 t2 post2 hp2 hs2b
  obtain ⟨_, e2, _⟩ := anchor_readings n a h b t rest n2 a2 h2 b2 t2 post2 hp hp2
    (hs0 ▸ hs2b)
  by_contra hlt
  have hlt2 : a.length < a2.length := by omega
  refine hmax a2 _ [h2, t2] post2 (hs3b.trans e2) ((notChar_all '>' a2).2 hp2.2.2.1) hlt2 ?_
  exact tail_matches h2 b2 t2 post2 ⟨hp2.2.2.2.1, hp2.2.2.2.2.1, hp2.2.2.2.2.2.1,
    hp2.2.2.2.2.2.2.1, hp2.2.2.2.2.2.2.2⟩

theorem findAllFuel_mem (fuel : Nat) (s : Str) (m : List Str)
    (hm : m ∈ findAllFuel issueRegexp fuel s) :
    ∃ pre s1 caps rest, s = pre ++ s1 ∧ matchItems issueRegexp s1 = some (caps, rest) ∧
      m = s1.take (s1.length - rest.length) :: caps := by
  induction fuel generalizing s with
  | zero => simp [findAllFuel] at hm
  | succ fuel ih =>
    simp only [findAllFuel] at hm
    cases hf : findFirst issueRegexp s with
    | none => rw [hf] at hm; simp at hm
    | some x =>
      obtain ⟨gap, m1, rest⟩ := x
      rw [hf] at hm
      obtain ⟨s1, caps, hs, hms, hm1, _⟩ := findFirst_some issueRegexp s gap m1 rest hf
      obtain ⟨n, a, hr, b, t, hs1, _, _⟩ := matchItems_issueRegexp_some s1 caps rest hms
      simp only [List.mem_cons] at hm
      rcases hm with hm | hm
      · exact ⟨gap, s1, caps, rest, hs, hms, hm.trans hm1⟩
      · obtain ⟨pre, s2, caps2, rest2, hs2, hms2, hm2⟩ := ih rest hm
        refine ⟨gap ++ (anchorText n a hr b t ++ pre), s2, caps2, rest2, ?_, hms2, hm2⟩
        rw [hs, hs1, hs2]
        simp

/-! ## Lemmas on the dedupe store -/

theorem mem_mapSet (cache : Cache) (k x : Str) : x ∈ mapSet cache k ↔ x ∈ cache ∨ x = k := by
  unfold mapSet
  by_cases h : k ∈ cache
  · simp only [h, if_true]
    constructor
    · exact Or.inl
    · rintro (h1 | h1)
      · exact h1
      · exact h1 ▸ h
  · simp [h]

theorem mapSet_nodup (cache : Cache) (k : Str) (h : cache.Nodup) : (mapSet cache k).Nodup := by
  unfold mapSet
  by_cases hk : k ∈ cache
  · simpa [hk] using h
  · simp only [hk, if_false]
    exact List.Nodup.append h (List.nodup_singleton k) (by simpa using hk)

theorem stringsSplit_ne_nil (sep : Char) (s : Str) : stringsSplit sep s ≠ [] := by
  cases s with
  | nil => simp [stringsSplit]
  | cons c cs =>
    simp only [stringsSplit]
    split
    · simp
    · split <;> simp

theorem stringsSplit_noSep (sep : Char) (a : Str) (h : sep ∉ a) : stringsSplit sep a = [a] := by
  induction a with
  | nil => rfl
  | cons c a ih =>
    have h1 : c ≠ sep := fun e => h (e ▸ List.mem_cons_self _ _)
    have h2 : sep ∉ a := fun e => h (List.mem_cons_of_mem _ e)
    simp [stringsSplit, h1, ih h2]

theorem stringsSplit_append (sep : Char) (a r : Str) (h : sep ∉ a) :
    stringsSplit sep (a ++ sep :: r) = a :: stringsSplit sep r := by
  induction a with
  | nil => simp [stringsSplit]
  | cons c a ih =>
    have h1 : c ≠ sep := fun e => h (e ▸ List.mem_cons_self _ _)
    have h2 : sep ∉ a := fun e => h (List.mem_cons_of_mem _ e)
    simp [stringsSplit, h1, ih h2]

theorem stringsSplit_mem (sep : Char) (s l : Str) (h : l ∈ stringsSplit sep s) : sep ∉ l := by
  induction s generalizing l with
  | nil =>
    simp only [stringsSplit, List.mem_singleton] at h
    subst h
    simp
  | cons c cs ih =>
    simp only [stringsSplit] at h
    by_cases hc : c = sep
    · simp only [hc, if_true, List.mem_cons] at h
      rcases h with h | h
      · subst h; simp
      · exact ih l h
    · simp only [hc, if_false] at h
      cases hs : stringsSplit sep cs with
      | nil => exact absurd hs (stringsSplit_ne_nil sep cs)
      | cons l1 ls =>
        rw [hs] at h
        simp only [List.mem_cons] at h
        rcases h with h | h
        · subst h
          have := ih l1 (by rw [hs]; exact List.mem_cons_self _ _)
          intro hm
          simp only [List.mem_cons] at hm
          rcases hm with hm | hm
          · exact hc hm.symm
          · exact this hm
        · exact ih l (by rw [hs]; exact List.mem_cons_of_mem _ h)

theorem split_join (lines : List Str) (hne : lines ≠ []) (h : ∀ l ∈ lines, '\n' ∉ l) :
    stringsSplit '\n' (stringsJoin ['\n'] lines) = lines := by
  induction lines with
  | nil => exact absurd rfl hne
  | cons a rest ih =>
    cases rest with
    | nil => exact stringsSplit_noSep '\n' a (h a (List.mem_cons_self _ _))
    | cons b rest =>
      simp only [stringsJoin, List.append_assoc, List.singleton_append]
      rw [stringsSplit_append '\n' a _ (h a (List.mem_cons_self _ _))]
      rw [ih (by simp) (fun l hl => h l (List.mem_cons_of_mem _ hl))]

theorem mem_loadLines (lines : List Str) (cache : Cache) (x : Str) :
    x ∈ loadLines lines cache ↔ x ∈ cache ∨ (x ∈ lines ∧ x ≠ []) := by
  induction lines generalizing cache with
  | nil => simp [loadLines]
  | cons l lines ih =>
    simp only [loadLines]
    by_cases hl : l = []
    · subst hl
      simp only [ne_eq, not_true_eq_false, if_false, ih, List.mem_cons]
      constructor
      · rintro (h | ⟨h1, h2⟩)
        · exact Or.inl h
        · exact Or.inr ⟨Or.inr h1, h2⟩
      · rintro (h | ⟨h1 | h1, h2⟩)
        · exact Or.inl h
        · exact absurd h1 h2
        · exact Or.inr ⟨h1, h2⟩
    · simp only [ne_eq, hl, not_false_eq_true, if_true, ih, mem_mapSet, List.mem_cons]
      constructor
      · rintro ((h | h) | ⟨h1, h2⟩)
        · exact Or.inl h
        · exact Or.inr ⟨Or.inl h, h ▸ hl⟩
        · exact Or.inr ⟨Or.inr h1, h2⟩
      · rintro (h | ⟨h1 | h1, h2⟩)
        · exact Or.inl (Or.inl h)
        · exact Or.inl (Or.inr h1)
        · exact Or.inr ⟨h1, h2⟩

theorem loadLines_nodup (lines : List Str) (cache : Cache) (h : cache.Nodup) :
    (loadLines lines cache).Nodup := by
  induction lines generalizing cache with
  | nil => exact h
  | cons l lines ih =>
    simp only [loadLines]
    split
    · exact ih _ (mapSet_nodup cache l h)
    · exact ih _ h

/-- Whatever `loadCache` returns has each key once, and every key is a
non-empty line. -/
theorem loadCache_wellFormed (r : ReadResult) (S : Cache) (h : loadCache r = Except.ok S) :
    S.Nodup ∧ ∀ x ∈ S, LineLike x := by
  cases r with
  | notExist =>
    simp only [loadCache, Except.ok.injEq] at h
    subst h
    exact ⟨List.nodup_nil, fun x hx => absurd hx (List.not_mem_nil x)⟩
  | failed msg => simp [loadCache] at h
  | ok data =>
    simp only [loadCache, Except.ok.injEq] at h
    subst h
    refine ⟨loadLines_nodup _ _ List.nodup_nil, fun x hx => ?_⟩
    rw [mem_loadLines] at hx
    rcases hx with hx | ⟨hx1, hx2⟩
    · exact absurd hx (List.not_mem_nil x)
    · exact ⟨hx2, stringsSplit_mem '\n' data x hx1⟩

/-- Loading what was joined from line-like keys returns exactly those keys. -/
theorem load_join (lines : List Str) (h : ∀ l ∈ lines, LineLike l) (x : Str) :
    x ∈ loadLines (stringsSplit '\n' (stringsJoin ['\n'] lines)) [] ↔ x ∈ lines := by
  rw [mem_loadLines]
  cases lines with
  | nil => simp [stringsJoin, stringsSplit]
  | cons a rest =>
    rw [split_join (a :: rest) (by simp) (fun l hl => (h l hl).2)]
    constructor
    · rintro (h1 | ⟨h1, _⟩)
      · exact absurd h1 (List.not_mem_nil x)
      · exact h1
    · intro h1
      exact Or.inr ⟨h1, (h x h1).1⟩

/-! ## Lemmas on the loop -/

theorem firstById_filter (q : Str → Bool) (l : List Issue) :
    firstById (l.filter (fun j => q j.id)) = (firstById l).filter (fun j => q j.id) := by
  induction l with
  | nil => rfl
  | cons i l ih =>
    by_cases hq : q i.id = true
    · simp only [List.filter_cons, hq, if_true, firstById, ih, List.cons.injEq, true_and]
      simp only [List.filter_filter]
      congr 1
      funext j
      exact Bool.and_comm _ _
    · simp only [List.filter_cons, hq, firstById, ih, List.filter_filter]
      simp only [Bool.false_eq_true, if_false]
      rw [ih]
      apply List.filter_congr
      intro j _
      by_cases hj : q j.id = true
      · have : j.id ≠ i.id := fun e => hq (e ▸ hj)
        simp [hj, this]
      · simp [hj]

theorem firstById_sublist (l : List Issue) : (firstById l).Sublist l := by
  induction l with
  | nil => exact List.Sublist.slnil
  | cons i l ih =>
    simp only [firstById]
    exact List.Sublist.cons₂ i ((List.filter_sublist _).trans ih)

theorem mem_firstById_ids (l : List Issue) (x : Str) :
    x ∈ (firstById l).map (fun i => i.id) ↔ x ∈ l.map (fun i => i.id) := by
  induction l with
  | nil => simp [firstById]
  | cons i l ih =>
    simp only [firstById, List.map_cons, List.mem_cons]
    constructor
    · rintro (h | h)
      · exact Or.inl h
      · right
        rw [← ih]
        simp only [List.mem_map, List.mem_filter] at h ⊢
        obtain ⟨j, ⟨hj, _⟩, hx⟩ := h
        exact ⟨j, hj, hx⟩
    · rintro (h | h)
      · exact Or.inl h
      · by_cases hx : x = i.id
        · exact Or.inl hx
        · right
          rw [← ih] at h
          simp only [List.mem_map, List.mem_filter] at h ⊢
          obtain ⟨j, hj, hjx⟩ := h
          exact ⟨j, ⟨hj, by simpa [hjx] using hx⟩, hjx⟩

theorem firstById_nodup (l : List Issue) : ((firstById l).map (fun i => i.id)).Nodup := by
  induction l with
  | nil => simp [firstById]
  | cons i l ih =>
    simp only [firstById, List.map_cons, List.nodup_cons]
    constructor
    · simp only [List.mem_map, List.mem_filter, not_exists, not_and]
      intro j hj hji
      simp [hji] at hj
    · exact ih.sublist ((List.filter_sublist _).map _)

/-- The map after the loop: every match's identifier assigned in turn. -/
theorem processMatches_cache (cfg : Config) (w : Nat → HttpResult) (ms : List (List Str))
    (st : LoopState) :
    (processMatches cfg w ms st).cache =
      ms.foldl (fun c m => mapSet c (toIssue m).id) st.cache := by
  induction ms generalizing st with
  | nil => rfl
  | cons m ms ih =>
    simp only [processMatches, List.foldl_cons]
    by_cases h : (toIssue m).id ∈ st.cache
    · simp only [h, if_true]
      rw [ih]
      simp [mapSet, h]
    · simp only [h, if_false]
      rw [ih]

theorem mem_foldl_mapSet (ms : List (List Str)) (c : Cache) (x : Str) :
    x ∈ ms.foldl (fun c m => mapSet c (toIssue m).id) c ↔
      x ∈ c ∨ x ∈ (ms.map toIssue).map (fun i => i.id) := by
  induction ms generalizing c with
  | nil => simp
  | cons m ms ih =>
    simp only [List.foldl_cons, ih, mem_mapSet, List.map_cons, List.mem_cons]
    constructor
    · rintro ((h | h) | h)
      · exact Or.inl h
      · exact Or.inr (Or.inl h)
      · exact Or.inr (Or.inr h)
    · rintro (h | h | h)
      · exact Or.inl (Or.inl h)
      · exact Or.inl (Or.inr h)
      · exact Or.inr h

theorem foldl_mapSet_nodup (ms : List (List Str)) (c : Cache) (h : c.Nodup) :
    (ms.foldl (fun c m => mapSet c (toIssue m).id) c).Nodup := by
  induction ms generalizing c with
  | nil => exact h
  | cons m ms ih => exact ih _ (mapSet_nodup c _ h)

/-- The calls of `notify` the loop makes: the first entry of each identifier
that the map does not hold, in order. -/
theorem processMatches_notified (cfg : Config) (w : Nat → HttpResult) (ms : List (List Str))
    (st : LoopState) :
    (processMatches cfg w ms st).notified =
      st.notified ++
        firstById ((ms.map toIssue).filter (fun i => decide (i.id ∉ st.cache))) := by
  induction ms generalizing st with
  | nil => simp [processMatches, firstById]
  | cons m ms ih =>
    simp only [processMatches, List.map_cons, List.filter_cons]
    by_cases h : (toIssue m).id ∈ st.cache
    · simp only [h, if_true, not_true_eq_false, decide_False, Bool.false_eq_true, if_false]
      rw [ih]
    · simp only [h, if_false, not_false_eq_true, decide_True, if_true, firstById]
      rw [ih]
      simp only [List.append_assoc, List.singleton_append, List.append_cancel_left_eq,
        List.cons.injEq, true_and]
      rw [← firstById_filter (fun x => decide (x ≠ (toIssue m).id)), List.filter_filter]
      congr 1
      apply List.filter_congr
      intro j _
      simp [mem_mapSet, not_or, Bool.and_comm]

theorem postsOf_append (a b : List Event) : postsOf (a ++ b) = postsOf a ++ postsOf b := by
  simp [postsOf]

theorem postsOf_notify (cfg : Config) (w : Nat → HttpResult) (k : Nat) (t u : Str) :
    postsOf (notify cfg w k t u).1 = notifyPosts cfg t u := by
  simp only [notify, notifyPosts, postsOf_append]
  congr 1
  · by_cases h : cfg.discordWebhookURL = []
    · simp [h, postsOf]
    · simp only [ne_eq, h, not_false_eq_true, if_true, notifyDiscord]
      cases w k with
      | error msg => simp [postsOf]
      | response code status => by_cases hc : code = 204 <;> simp [postsOf, hc]
  · by_cases h : cfg.googleChatWebhookURL = []
    · simp [h, postsOf]
    · simp only [ne_eq, h, not_false_eq_true, if_true, notifyGoogleChat]
      generalize (if cfg.discordWebhookURL ≠ [] then
        (notifyDiscord cfg t u (w k), k + 1) else ([], k)).2 = k2
      cases w k2 with
      | error msg => simp [postsOf]
      | response code status => by_cases hc : code = 200 <;> simp [postsOf, hc]

/-- The POSTs of the loop are those of its calls of `notify`. -/
theorem processMatches_posts (cfg : Config) (w : Nat → HttpResult) (ms : List (List Str))
    (st : LoopState)
    (h : postsOf st.events = st.notified.flatMap (fun i => notifyPosts cfg i.title i.url)) :
    postsOf (processMatches cfg w ms st).events =
      (processMatches cfg w ms st).notified.flatMap (fun i => notifyPosts cfg i.title i.url) := by
  induction ms generalizing st with
  | nil => exact h
  | cons m ms ih =>
    simp only [processMatches]
    by_cases hc : (toIssue m).id ∈ st.cache
    · simp only [hc, if_true]
      apply ih
      show postsOf (st.events ++ _) = _
      rw [postsOf_append, h]
      simp [postsOf]
    · simp only [hc, if_false]
      apply ih
      show postsOf (st.events ++ _ ++ _ ++ _) = List.flatMap (st.notified ++ _) _
      rw [postsOf_append, postsOf_append, postsOf_append, h, postsOf_notify, List.flatMap_append]
      simp [postsOf]

/-! ## Lemmas on one cycle -/

theorem loadLines_eq (lines : List Str) (cache : Cache) (hnd : (cache ++ lines).Nodup)
    (hne : ∀ l ∈ lines, l ≠ []) : loadLines lines cache = cache ++ lines := by
  induction lines generalizing cache with
  | nil => simp [loadLines]
  | cons l lines ih =>
    have hl : l ≠ [] := hne l (List.mem_cons_self _ _)
    have hnot : l ∉ cache := by
      intro hc
      have := (List.nodup_append.1 hnd).2.2
      exact this hc (List.mem_cons_self _ _)
    simp only [loadLines, ne_eq, hl, not_false_eq_true, if_true, mapSet, hnot, if_false]
    rw [ih (cache ++ [l]) (by simpa using hnd) (fun x hx => hne x (List.mem_cons_of_mem _ hx))]
    simp

/-- Loading the text joined from line-like keys, each once, returns those keys
in the order written. -/
theorem loadCache_join (lines : List Str) (hnd : lines.Nodup) (h : ∀ l ∈ lines, LineLike l) :
    loadCache (ReadResult.ok (stringsJoin ['\n'] lines)) = Except.ok lines := by
  simp only [loadCache, Except.ok.injEq]
  cases lines with
  | nil => simp [stringsJoin, stringsSplit, loadLines]
  | cons a rest =>
    rw [split_join (a :: rest) (by simp) (fun l hl => (h l hl).2)]
    rw [loadLines_eq (a :: rest) [] (by simpa using hnd) (fun l hl => (h l hl).1)]
    simp

theorem digits_lineLike (n : Str) (hn : n ≠ []) (hd : ∀ c ∈ n, '0' ≤ c ∧ c ≤ '9') :
    LineLike n := by
  refine ⟨hn, fun hm => ?_⟩
  have := hd '\n' hm
  exact absurd this (by decide)

/-- Every match carries four submatches whose first group is a non-empty run of
digits. -/
theorem match_id_digits (html : Str) (m : List Str)
    (hm : m ∈ FindAllStringSubmatch issueRegexp html) :
    (toIssue m).id ≠ [] ∧ ∀ c ∈ (toIssue m).id, '0' ≤ c ∧ c ≤ '9' := by
  obtain ⟨pre, s1, caps, rest, _, hms, hm1⟩ := findAllFuel_mem _ _ _ hm
  obtain ⟨n, a, hr, b, t, _, hp, hcaps⟩ := matchItems_issueRegexp_some s1 caps rest hms
  subst hcaps
  subst hm1
  exact ⟨hp.1, hp.2.1⟩

theorem foldl_mapSet_lineLike (html : Str) (S : Cache) (hS : ∀ x ∈ S, LineLike x) :
    ∀ x ∈ (FindAllStringSubmatch issueRegexp html).foldl (fun c m => mapSet c (toIssue m).id) S,
      LineLike x := by
  intro x hx
  rw [mem_foldl_mapSet] at hx
  rcases hx with hx | hx
  · exact hS x hx
  · simp only [List.map_map, List.mem_map, Function.comp] at hx
    obtain ⟨m, hm, rfl⟩ := hx
    obtain ⟨h1, h2⟩ := match_id_digits html m hm
    exact digits_lineLike _ h1 h2

theorem foldl_mapSet_of_mem (ms : List (List Str)) (c : Cache)
    (h : ∀ m ∈ ms, (toIssue m).id ∈ c) :
    ms.foldl (fun c m => mapSet c (toIssue m).id) c = c := by
  induction ms with
  | nil => rfl
  | cons m ms ih =>
    simp only [List.foldl_cons]
    have hm : (toIssue m).id ∈ c := h m (List.mem_cons_self _ _)
    simp only [mapSet, hm, if_true]
    exact ih (fun x hx => h x (List.mem_cons_of_mem _ hx))

/-- The fields of the outcome of `parseIssues` when the map loads as `S`. -/
theorem parseIssues_ok (cfg : Config) (env : Env) (html : Str) (storage : Option Str)
    (S : Cache) (hload : loadCache (osReadFile env storage) = Except.ok S) :
    (parseIssues cfg env html storage).notified =
        firstById ((extractIssues html).filter (fun i => decide (i.id ∉ S))) ∧
      (parseIssues cfg env html storage).saved =
        some ((FindAllStringSubmatch issueRegexp html).foldl
          (fun c m => mapSet c (toIssue m).id) S) ∧
      (parseIssues cfg env html storage).storage =
        (saveCache cfg env ((FindAllStringSubmatch issueRegexp html).foldl
          (fun c m => mapSet c (toIssue m).id) S) storage).2.2 ∧
      postsOf (parseIssues cfg env html storage).events =
        (parseIssues cfg env html storage).notified.flatMap
          (fun i => notifyPosts cfg i.title i.url) := by
  simp only [parseIssues, hload, processMatches_cache, processMatches_notified, extractIssues,
    List.nil_append, true_and]
  rw [postsOf_append, postsOf_append, processMatches_posts _ _ _ _ (by simp [postsOf]),
    processMatches_notified]
  simp only [List.nil_append]
  have h1 : ∀ c, postsOf (saveCache cfg env c storage).1 = [] := by
    intro c
    simp only [saveCache]
    cases env.mkdirErr with
    | some msg => simp [postsOf]
    | none =>
      cases env.writeErr with
      | some x => simp [postsOf]
      | none => simp [postsOf]
  have h2 : ∀ (x : Option Str), postsOf (match x with
      | some msg => [Event.log ("Error saving cache: ".toList ++ msg)]
      | none => []) = [] := by
    intro x
    cases x <;> simp [postsOf]
  rw [h1, h2]
  simp

/-- The fields of the outcome of `parseIssues` when the map fails to load. -/
theorem parseIssues_error (cfg : Config) (env : Env) (html : Str) (storage : Option Str)
    (msg : Str) (hload : loadCache (osReadFile env storage) = Except.error msg) :
    parseIssues cfg env html storage =
      { events := [Event.log ("Found ".toList ++
            (Nat.repr (FindAllStringSubmatch issueRegexp html).length).toList ++
            " matches".toList),
          Event.readFile cfg.cacheFile, Event.log ("Error loading cache: ".toList ++ msg)]
        notified := [], saved := none, storage := storage } := by
  simp [parseIssues, hload]

/-- A cycle whose fetch succeeds is `parseIssues` on the body, after two log
lines and the GET. -/
theorem checkForNewIssues_fetched (cfg : Config) (env : Env) (storage : Option Str)
    (html : Str) (hget : env.get = GetResult.response 200 (Except.ok html)) :
    (checkForNewIssues cfg env storage).notified = (parseIssues cfg env html storage).notified ∧
      (checkForNewIssues cfg env storage).saved = (parseIssues cfg env html storage).saved ∧
      (checkForNewIssues cfg env storage).storage = (parseIssues cfg env html storage).storage ∧
      postsOf (checkForNewIssues cfg env storage).events =
        postsOf (parseIssues cfg env html storage).events := by
  simp [checkForNewIssues, hget, postsOf]

/-- A cycle whose fetch fails logs and returns. -/
theorem checkForNewIssues_failed (cfg : Config) (env : Env) (storage : Option Str)
    (hget : fetchFailed env.get = true) :
    ∃ line, checkForNewIssues cfg env storage =
      { events := [Event.log "Checking for new issues...".toList, Event.httpGet cfg.repoURL,
          Event.log line]
        notified := [], saved := none, storage := storage } := by
  simp only [checkForNewIssues]
  cases hg : env.get with
  | error msg => exact ⟨_, rfl⟩
  | response code body =>
    rw [hg] at hget
    by_cases hc : code = 200
    · subst hc
      cases body with
      | error msg => exact ⟨_, rfl⟩
      | ok text => simp [fetchFailed] at hget
    · simp only [ne_eq, hc, not_false_eq_true, if_true]
      exact ⟨_, rfl⟩

theorem fetch_ok_of_not_failed (g : GetResult) (h : fetchFailed g = false) :
    ∃ html, g = GetResult.response 200 (Except.ok html) := by
  cases g with
  | error msg => simp [fetchFailed] at h
  | response code body =>
    cases body with
    | error msg => simp [fetchFailed] at h
    | ok text =>
      simp only [fetchFailed, ne_eq, Bool.or_false, decide_eq_false_iff_not, not_not] at h
      exact ⟨text, by rw [h]⟩

theorem loadCache_readStored (storage : Option Str) :
    ∃ S, loadCache (readStored storage) = Except.ok S := by
  cases storage with
  | none => exact ⟨[], rfl⟩
  | some data => exact ⟨_, rfl⟩

/-- A cycle that fetches, loads `S` and saves: what it notifies, what it hands
to `saveCache`, what it writes, and what the next load reads back. -/
theorem cycle_success (cfg : Config) (env : Env) (storage : Option Str) (html : Str) (S : Cache)
    (hget : env.get = GetResult.response 200 (Except.ok html)) (hread : env.readErr = none)
    (hsave : SaveSucceeds env) (hrange : RangeVisitsKeys env)
    (hS : loadCache (readStored storage) = Except.ok S) :
    (checkForNewIssues cfg env storage).notified =
        firstById ((extractIssues html).filter (fun i => decide (i.id ∉ S))) ∧
      (checkForNewIssues cfg env storage).saved =
        some ((FindAllStringSubmatch issueRegexp html).foldl
          (fun c m => mapSet c (toIssue m).id) S) ∧
      (checkForNewIssues cfg env storage).storage =
        some (saveCacheData env ((FindAllStringSubmatch issueRegexp html).foldl
          (fun c m => mapSet c (toIssue m).id) S)) ∧
      loadCache (readStored (checkForNewIssues cfg env storage).storage) =
        Except.ok (env.rangeOrder ((FindAllStringSubmatch issueRegexp html).foldl
          (fun c m => mapSet c (toIssue m).id) S)) := by
  have hload : loadCache (osReadFile env storage) = Except.ok S := by
    simpa [osReadFile, hread] using hS
  obtain ⟨h1, h2, h3, _⟩ := parseIssues_ok cfg env html storage S hload
  obtain ⟨g1, g2, g3, _⟩ := checkForNewIssues_fetched cfg env storage html hget
  have h3b : (parseIssues cfg env html storage).storage =
      some (saveCacheData env ((FindAllStringSubmatch issueRegexp html).foldl
        (fun c m => mapSet c (toIssue m).id) S)) := by
    rw [h3]
    simp [saveCache, hsave.1, hsave.2]
  refine ⟨g1.trans h1, g2.trans h2, g3.trans h3b, ?_⟩
  rw [g3, h3b]
  obtain ⟨hnd, hll⟩ := loadCache_wellFormed _ S hS
  have hperm := hrange ((FindAllStringSubmatch issueRegexp html).foldl
    (fun c m => mapSet c (toIssue m).id) S)
  exact loadCache_join _ (hperm.nodup_iff.2 (foldl_mapSet_nodup _ S hnd))
    (fun l hl => foldl_mapSet_lineLike html S hll l (hperm.mem_iff.1 hl))

theorem mem_ids_firstById_filter (l : List Issue) (S : Cache) (x : Str) :
    x ∈ ids (firstById (l.filter (fun i => decide (i.id ∉ S)))) ↔ x ∈ ids l ∧ x ∉ S := by
  unfold ids
  rw [mem_firstById_ids]
  simp only [List.mem_map, List.mem_filter, decide_eq_true_eq]
  constructor
  · rintro ⟨i, ⟨hi, hn⟩, rfl⟩
    exact ⟨⟨i, hi, rfl⟩, hn⟩
  · rintro ⟨⟨i, hi, rfl⟩, hn⟩
    exact ⟨i, ⟨hi, hn⟩, rfl⟩

/-- One cycle keeps the invariant: afterwards the stored set is the earlier one
together with the identifiers notified in this cycle, none of which was in the
earlier set and none of which is notified twice. -/
theorem cycle_invariant (cfg : Config) (env : Env) (storage : Option Str) (S : Cache)
    (hsave : SaveSucceeds env) (hrange : RangeVisitsKeys env)
    (hS : loadCache (readStored storage) = Except.ok S) :
    ∃ S1, loadCache (readStored (checkForNewIssues cfg env storage).storage) = Except.ok S1 ∧
      (∀ x, x ∈ S1 ↔ x ∈ S ∨ x ∈ ids (checkForNewIssues cfg env storage).notified) ∧
      (ids (checkForNewIssues cfg env storage).notified).Nodup ∧
      ∀ x ∈ ids (checkForNewIssues cfg env storage).notified, x ∉ S := by
  cases hf : fetchFailed env.get with
  | true =>
    obtain ⟨line, ho⟩ := checkForNewIssues_failed cfg env storage hf
    rw [ho]
    exact ⟨S, hS, by simp [ids], by simp [ids], by simp [ids]⟩
  | false =>
    obtain ⟨html, hget⟩ := fetch_ok_of_not_failed env.get hf
    cases hr : env.readErr with
    | some msg =>
      have hload : loadCache (osReadFile env storage) = Except.error msg := by
        simp [osReadFile, hr, loadCache]
      obtain ⟨g1, _, g3, _⟩ := checkForNewIssues_fetched cfg env storage html hget
      rw [g1, g3, parseIssues_error cfg env html storage msg hload]
      exact ⟨S, hS, by simp [ids], by simp [ids], by simp [ids]⟩
    | none =>
      obtain ⟨h1, _, _, h4⟩ := cycle_success cfg env storage html S hget hr hsave hrange hS
      refine ⟨_, h4, ?_, ?_, ?_⟩
      · intro x
        rw [(hrange _).mem_iff, mem_foldl_mapSet, h1, mem_ids_firstById_filter]
        unfold ids extractIssues
        constructor
        · rintro (h | h)
          · exact Or.inl h
          · by_cases hx : x ∈ S
            · exact Or.inl hx
            · exact Or.inr ⟨h, hx⟩
        · rintro (h | ⟨h, _⟩)
          · exact Or.inl h
          · exact Or.inr h
      · rw [h1]
        exact firstById_nodup _
      · intro x hx
        rw [h1, mem_ids_firstById_filter] at hx
        exact hx.2

theorem runCycles_append (cfg : Config) (envs : List Env) (env : Env) (storage : Option Str) :
    runCycles cfg (envs ++ [env]) storage =
      ((runCycles cfg envs storage).1 ++
          [checkForNewIssues cfg env (runCycles cfg envs storage).2],
        (checkForNewIssues cfg env (runCycles cfg envs storage).2).storage) := by
  induction envs generalizing storage with
  | nil => simp [runCycles]
  | cons e envs ih => simp [runCycles, ih]

/-- A run keeps the invariant from any stored set. -/
theorem run_invariant (cfg : Config) (envs : List Env) (storage : Option Str) (S : Cache)
    (hsave : ∀ env ∈ envs, SaveSucceeds env ∧ RangeVisitsKeys env)
    (hS : loadCache (readStored storage) = Except.ok S) :
    ∃ S1, loadCache (readStored (runCycles cfg envs storage).2) = Except.ok S1 ∧
      (∀ x, x ∈ S1 ↔
        x ∈ S ∨ x ∈ ids ((runCycles cfg envs storage).1.flatMap (fun o => o.notified))) ∧
      (ids ((runCycles cfg envs storage).1.flatMap (fun o => o.notified))).Nodup ∧
      ∀ x ∈ ids ((runCycles cfg envs storage).1.flatMap (fun o => o.notified)), x ∉ S := by
  induction envs generalizing storage S with
  | nil => exact ⟨S, hS, by simp [runCycles, ids], by simp [runCycles, ids],
      by simp [runCycles, ids]⟩
  | cons env envs ih =>
    obtain ⟨hs, hr⟩ := hsave env (List.mem_cons_self _ _)
    obtain ⟨S1, h1, h2, h3, h4⟩ := cycle_invariant cfg env storage S hs hr hS
    obtain ⟨S2, k1, k2, k3, k4⟩ := ih (checkForNewIssues cfg env storage).storage S1
      (fun e he => hsave e (List.mem_cons_of_mem _ he)) h1
    simp only [runCycles, List.flatMap_cons]
    have hids : ∀ a b : List Issue, ids (a ++ b) = ids a ++ ids b := by
      intro a b; simp [ids]
    rw [hids]
    refine ⟨S2, k1, ?_, ?_, ?_⟩
    · intro x
      rw [k2, h2, List.mem_append, or_assoc]
    · rw [List.nodup_append]
      refine ⟨h3, k3, ?_⟩
      intro x hx1 hx2
      exact k4 x hx2 ((h2 x).2 (Or.inr hx1))
    · intro x hx
      rw [List.mem_append] at hx
      rcases hx with hx | hx
      · exact h4 x hx
      · intro hxS
        exact k4 x hx ((h2 x).2 (Or.inl hxS))

/-- In every cycle the POSTs are those of the calls of `notify`. -/
theorem cycle_posts (cfg : Config) (env : Env) (storage : Option Str) :
    postsOf (checkForNewIssues cfg env storage).events =
      (checkForNewIssues cfg env storage).notified.flatMap
        (fun i => notifyPosts cfg i.title i.url) := by
  cases hf : fetchFailed env.get with
  | true =>
    obtain ⟨line, ho⟩ := checkForNewIssues_failed cfg env storage hf
    rw [ho]
    simp [postsOf]
  | false =>
    obtain ⟨html, hget⟩ := fetch_ok_of_not_failed env.get hf
    obtain ⟨g1, _, _, g4⟩ := checkForNewIssues_fetched cfg env storage html hget
    rw [g1, g4]
    cases hl : loadCache (osReadFile env storage) with
    | error msg =>
      rw [parseIssues_error cfg env html storage msg hl]
      simp [postsOf]
    | ok S => exact (parseIssues_ok cfg env html storage S hl).2.2.2

/-- What a cycle notifies, hands to `saveCache` and leaves in storage does not
depend on the outcomes of the webhook calls. -/
theorem cycle_webhook_irrelevant (cfg : Config) (env : Env) (w2 : Nat → HttpResult)
    (storage : Option Str) :
    (checkForNewIssues cfg { env with webhook := w2 } storage).notified =
        (checkForNewIssues cfg env storage).notified ∧
      (checkForNewIssues cfg { env with webhook := w2 } storage).saved =
        (checkForNewIssues cfg env storage).saved ∧
      (checkForNewIssues cfg { env with webhook := w2 } storage).storage =
        (checkForNewIssues cfg env storage).storage := by
  cases hf : fetchFailed env.get with
  | true =>
    obtain ⟨line, ho⟩ := checkForNewIssues_failed cfg env storage hf
    obtain ⟨line2, ho2⟩ := checkForNewIssues_failed cfg { env with webhook := w2 } storage hf
    rw [ho, ho2]
    exact ⟨rfl, rfl, rfl⟩
  | false =>
    obtain ⟨html, hget⟩ := fetch_ok_of_not_failed env.get hf
    obtain ⟨g1, g2, g3, _⟩ := checkForNewIssues_fetched cfg env storage html hget
    obtain ⟨k1, k2, k3, _⟩ := checkForNewIssues_fetched cfg { env with webhook := w2 } storage
      html hget
    rw [g1, g2, g3, k1, k2, k3]
    cases hl : loadCache (osReadFile env storage) with
    | error msg =>
      rw [parseIssues_error cfg env html storage msg hl,
        parseIssues_error cfg { env with webhook := w2 } html storage msg hl]
      exact ⟨rfl, rfl, rfl⟩
    | ok S =>
      obtain ⟨a1, a2, a3, _⟩ := parseIssues_ok cfg env html storage S hl
      obtain ⟨b1, b2, b3, _⟩ := parseIssues_ok cfg { env with webhook := w2 } html storage S hl
      rw [a1, a2, a3, b1, b2, b3]
      exact ⟨rfl, rfl, rfl⟩

/-- Whatever a cycle notifies is in the map it hands to `saveCache`. -/
theorem cycle_notified_saved (cfg : Config) (env : Env) (storage : Option Str) (i : Issue)
    (hi : i ∈ (checkForNewIssues cfg env storage).notified) :
    ∃ C, (checkForNewIssues cfg env storage).saved = some C ∧ i.id ∈ C := by
  cases hf : fetchFailed env.get with
  | true =>
    obtain ⟨line, ho⟩ := checkForNewIssues_failed cfg env storage hf
    rw [ho] at hi
    simp at hi
  | false =>
    obtain ⟨html, hget⟩ := fetch_ok_of_not_failed env.get hf
    obtain ⟨g1, g2, _, _⟩ := checkForNewIssues_fetched cfg env storage html hget
    rw [g1] at hi
    rw [g2]
    cases hl : loadCache (osReadFile env storage) with
    | error msg =>
      rw [parseIssues_error cfg env html storage msg hl] at hi
      simp at hi
    | ok S =>
      obtain ⟨a1, a2, _, _⟩ := parseIssues_ok cfg env html storage S hl
      refine ⟨_, a2, ?_⟩
      rw [mem_foldl_mapSet]
      right
      have : i.id ∈ ids (parseIssues cfg env html storage).notified :=
        List.mem_map.2 ⟨i, hi, rfl⟩
      rw [a1, mem_ids_firstById_filter] at this
      exact this.1

/-- Two log lines with different first symbols differ, whatever is appended
to the second. -/
theorem line_ne (a b x : Str) (h : a.head? ≠ b.head?) (hb : b ≠ []) : a ≠ b ++ x := by
  intro e
  apply h
  cases b with
  | nil => exact absurd rfl hb
  | cons d b => rw [e]; rfl

theorem runCycles_mem (cfg : Config) (envs : List Env) (storage : Option Str) (o : Outcome)
    (ho : o ∈ (runCycles cfg envs storage).1) :
    ∃ env st, o = checkForNewIssues cfg env st := by
  induction envs generalizing storage with
  | nil => simp [runCycles] at ho
  | cons env envs ih =>
    simp only [runCycles, List.mem_cons] at ho
    rcases ho with ho | ho
    · exact ⟨env, storage, ho⟩
    · exact ih _ ho

/-! ## The extractor -/

theorem inDocumentOrder_nil_iff (s : Str) :
    InDocumentOrder s [] ↔ ∀ u m r i, s = u ++ (m ++ r) → ¬ AnchorShape m i := by
  constructor
  · intro h
    cases h with
    | done _ h1 => exact h1
  · exact InDocumentOrder.done s

theorem extractIssues_eq_nil_iff (html : Str) :
    extractIssues html = [] ↔ ∀ u m r i, html = u ++ (m ++ r) → ¬ AnchorShape m i := by
  have h := extractIssues_inDocumentOrder html
  constructor
  · intro he
    rw [he] at h
    exact (inDocumentOrder_nil_iff html).1 h
  · intro hno
    generalize extractIssues html = l at h
    cases h with
    | done _ _ => rfl
    | step gap m rest i is _ hsh _ => exact absurd hsh (hno gap m rest i rfl)

/-- C4: for every markup text the extractor returns the issues of the anchors
of the exact shape, left to right and without overlap (each one is the first
anchor of the shape to start after the end of the previous one, and the text
that is skipped yields nothing); it returns the empty sequence exactly when no
fragment of the text has the shape, hence whenever the opening
`<a id="issue_` never occurs, as for an anchor without the id attribute. -/
theorem extractor_document_order (html : Str) :
    InDocumentOrder html (extractIssues html) ∧
      (extractIssues html = [] ↔ ∀ u m r i, html = u ++ (m ++ r) → ¬ AnchorShape m i) ∧
      (¬ List.IsInfix litOpen html → extractIssues html = []) ∧
      extractIssues sampleNoId = [] ∧
      extractIssues [] = [] := by
  refine ⟨extractIssues_inDocumentOrder html, extractIssues_eq_nil_iff html, ?_, by decide,
    by decide⟩
  intro hno
  rw [extractIssues_eq_nil_iff]
  intro u m r i hs hsh
  obtain ⟨n, a, h, b, t, rfl, _, _⟩ := hsh
  apply hno
  refine ⟨u, n ++ (litClass ++ (a ++ (litHref ++ (h ++ ('"' :: (b ++ ('>' :: (t ++ litClose))))))))
    ++ r, ?_⟩
  rw [hs]
  simp [anchorText]

theorem extractor_document_order_witness :
    ¬ List.IsInfix litOpen sampleNoId ∧ extractIssues sampleNoId = [] :=
  ⟨by decide, (extractor_document_order sampleNoId).2.2.1 (by decide)⟩

/-- C10: every issue the extractor produces comes from a place of the markup
that reads as an anchor of the exact shape, and its identifier is the
non-empty digit run of the id attribute, its URL is `https://github.com`
followed by the href value unchanged, and its title is the inner text
unchanged, non-empty and free of `<`; when the anchor can be read in several
ways (several `href="` before the first `>`), all agree on the digits and the
one taken has the href that starts last. -/
theorem extracted_fields (html : Str) (i : Issue) (hi : i ∈ extractIssues html) :
    ∃ pre n a h b t post,
      html = pre ++ (anchorText n a h b t ++ post) ∧ AnchorParts n a h b t ∧
      i.id = n ∧ n ≠ [] ∧ (∀ c ∈ n, '0' ≤ c ∧ c ≤ '9') ∧
      i.url = "https://github.com".toList ++ h ∧
      List.IsPrefix "https://github.com".toList i.url ∧
      (h = "/o/r/issues/101".toList → i.url = "https://github.com/o/r/issues/101".toList) ∧
      i.title = t ∧ t ≠ [] ∧ '<' ∉ t ∧
      ∀ n2 a2 h2 b2 t2 post2, AnchorParts n2 a2 h2 b2 t2 →
        anchorText n a h b t ++ post = anchorText n2 a2 h2 b2 t2 ++ post2 →
        n2 = n ∧ a2.length ≤ a.length ∧
          (a2.length = a.length → a2 = a ∧ h2 = h ∧ b2 = b ∧ t2 = t ∧ post2 = post) := by
  simp only [extractIssues, FindAllStringSubmatch, List.mem_map] at hi
  obtain ⟨m, hm, rfl⟩ := hi
  obtain ⟨pre, s1, caps, rest, hs, hms, hm1⟩ := findAllFuel_mem _ _ _ hm
  obtain ⟨n, a, h, b, t, hs1, hp, hcaps, hpref⟩ := matchItems_issueRegexp_preferred s1 caps rest hms
  subst hcaps hm1
  refine ⟨pre, n, a, h, b, t, rest, by rw [hs, hs1], hp, rfl, hp.1, hp.2.1, rfl,
    ⟨h, rfl⟩, ?_, rfl, hp.2.2.2.2.2.2.1, hp.2.2.2.2.2.2.2, ?_⟩
  · intro hh
    show sourceHost ++ h = _
    rw [hh]
    decide
  · intro n2 a2 h2 b2 t2 post2 hp2 he
    obtain ⟨e1, _, e3⟩ := anchor_readings n a h b t rest n2 a2 h2 b2 t2 post2 hp hp2 he
    exact ⟨e1, hpref n2 a2 h2 b2 t2 post2 hp2 (hs1.trans he), e3⟩

theorem extracted_fields_witness :
    sampleIssue ∈ extractIssues sampleHtml ∧
    ∃ pre n a h b t post,
      sampleHtml = pre ++ (anchorText n a h b t ++ post) ∧ AnchorParts n a h b t ∧
      sampleIssue.id = n ∧ n ≠ [] ∧ (∀ c ∈ n, '0' ≤ c ∧ c ≤ '9') ∧
      sampleIssue.url = "https://github.com".toList ++ h ∧
      List.IsPrefix "https://github.com".toList sampleIssue.url ∧
      (h = "/o/r/issues/101".toList →
        sampleIssue.url = "https://github.com/o/r/issues/101".toList) ∧
      sampleIssue.title = t ∧ t ≠ [] ∧ '<' ∉ t ∧
      ∀ n2 a2 h2 b2 t2 post2, AnchorParts n2 a2 h2 b2 t2 →
        anchorText n a h b t ++ post = anchorText n2 a2 h2 b2 t2 ++ post2 →
        n2 = n ∧ a2.length ≤ a.length ∧
          (a2.length = a.length → a2 = a ∧ h2 = h ∧ b2 = b ∧ t2 = t ∧ post2 = post) :=
  ⟨by decide, extracted_fields sampleHtml sampleIssue (by decide)⟩

/-! ## The cycle -/

/-- C1: with the dedupe set loaded as `S`, the loop attempts a notification for
exactly the entries whose identifier is not in `S`, the first entry of each
identifier only, in document order, and the map handed to `saveCache` holds
exactly `S` and the identifiers of the entries; on the two sample entries 101
and 102, an empty store notifies both and a store holding 101 notifies only
102, and both runs save 101 and 102. -/
theorem parseIssues_notifies_unseen_once (cfg : Config) (env : Env) (S : Cache) :
    (∀ (ms : List (List Str)) (evs : List Event),
      (processMatches cfg env.webhook ms
          { cache := S, events := evs, notified := [], posts := 0 }).notified =
        firstById ((ms.map toIssue).filter (fun i => decide (i.id ∉ S))) ∧
      ∀ x, x ∈ (processMatches cfg env.webhook ms
          { cache := S, events := evs, notified := [], posts := 0 }).cache ↔
        x ∈ S ∨ x ∈ ids (ms.map toIssue)) ∧
    (∀ (html : Str) (storage : Option Str),
      loadCache (osReadFile env storage) = Except.ok S →
      (parseIssues cfg env html storage).notified =
          firstById ((extractIssues html).filter (fun i => decide (i.id ∉ S))) ∧
        (ids (parseIssues cfg env html storage).notified).Nodup ∧
        (parseIssues cfg env html storage).notified.Sublist (extractIssues html) ∧
        (∀ x, x ∈ ids (parseIssues cfg env html storage).notified ↔
          x ∈ ids (extractIssues html) ∧ x ∉ S) ∧
        ∃ C, (parseIssues cfg env html storage).saved = some C ∧ C.Nodup ∧
          ∀ x, x ∈ C ↔ x ∈ S ∨ x ∈ ids (extractIssues html)) ∧
    ids (parseIssues sampleConfig sampleEnv sampleHtml none).notified =
        ["101".toList, "102".toList] ∧
      (parseIssues sampleConfig sampleEnv sampleHtml none).saved =
        some ["101".toList, "102".toList] ∧
      ids (parseIssues sampleConfig sampleEnv sampleHtml (some "101".toList)).notified =
        ["102".toList] ∧
      (parseIssues sampleConfig sampleEnv sampleHtml (some "101".toList)).saved =
        some ["101".toList, "102".toList] := by
  refine ⟨?_, ?_, by decide, by decide, by decide, by decide⟩
  · intro ms evs
    refine ⟨by rw [processMatches_notified]; rfl, fun x => ?_⟩
    rw [processMatches_cache, mem_foldl_mapSet]
    rfl
  · intro html storage hload
    obtain ⟨h1, h2, _, _⟩ := parseIssues_ok cfg env html storage S hload
    refine ⟨h1, ?_, ?_, ?_, _, h2, ?_, ?_⟩
    · rw [h1]; exact firstById_nodup _
    · rw [h1]; exact (firstById_sublist _).trans (List.filter_sublist _)
    · intro x; rw [h1]; exact mem_ids_firstById_filter _ S x
    · exact foldl_mapSet_nodup _ S (loadCache_wellFormed _ S hload).1
    · intro x
      rw [mem_foldl_mapSet]
      rfl

theorem parseIssues_notifies_unseen_once_witness :
    loadCache (osReadFile sampleEnv (some "101".toList)) = Except.ok ["101".toList] ∧
    (parseIssues sampleConfig sampleEnv sampleHtml (some "101".toList)).notified =
      firstById ((extractIssues sampleHtml).filter (fun i => decide (i.id ∉ ["101".toList]))) :=
  ⟨by rfl, ((parseIssues_notifies_unseen_once sampleConfig sampleEnv ["101".toList]).2.1
    sampleHtml (some "101".toList) (by rfl)).1⟩

/-- C2: when a cycle fetches a page, loads the store and saves successfully,
a second cycle that fetches the same page against the storage the first one
left loads a set holding every extracted identifier, attempts no notification
and no POST, and hands to `saveCache` the same keys as the first. -/
theorem second_cycle_notifies_nothing (cfg : Config) (env1 env2 : Env) (html : Str)
    (storage : Option Str)
    (hget1 : env1.get = GetResult.response 200 (Except.ok html)) (hread1 : env1.readErr = none)
    (hsave1 : SaveSucceeds env1) (hrange1 : RangeVisitsKeys env1)
    (hget2 : env2.get = GetResult.response 200 (Except.ok html)) (hread2 : env2.readErr = none) :
    (∃ S2, loadCache (osReadFile env2 (checkForNewIssues cfg env1 storage).storage) =
        Except.ok S2 ∧ ∀ i ∈ extractIssues html, i.id ∈ S2) ∧
      (checkForNewIssues cfg env2 (checkForNewIssues cfg env1 storage).storage).notified = [] ∧
      postsOf (checkForNewIssues cfg env2
        (checkForNewIssues cfg env1 storage).storage).events = [] ∧
      ∃ C1 C2, (checkForNewIssues cfg env1 storage).saved = some C1 ∧
        (checkForNewIssues cfg env2 (checkForNewIssues cfg env1 storage).storage).saved =
          some C2 ∧ C2.Perm C1 := by
  obtain ⟨S, hS⟩ := loadCache_readStored storage
  obtain ⟨_, k2, _, k4⟩ := cycle_success cfg env1 storage html S hget1 hread1 hsave1 hrange1 hS
  have hload2 : loadCache (osReadFile env2 (checkForNewIssues cfg env1 storage).storage) =
      Except.ok (env1.rangeOrder ((FindAllStringSubmatch issueRegexp html).foldl
        (fun c m => mapSet c (toIssue m).id) S)) := by
    simpa [osReadFile, hread2] using k4
  have hmem : ∀ m ∈ FindAllStringSubmatch issueRegexp html,
      (toIssue m).id ∈ env1.rangeOrder ((FindAllStringSubmatch issueRegexp html).foldl
        (fun c m => mapSet c (toIssue m).id) S) := by
    intro m hm
    rw [(hrange1 _).mem_iff, mem_foldl_mapSet]
    exact Or.inr (List.mem_map.2 ⟨toIssue m, List.mem_map.2 ⟨m, hm, rfl⟩, rfl⟩)
  obtain ⟨h1, h2, _, h4⟩ := parseIssues_ok cfg env2 html _ _ hload2
  obtain ⟨g1, g2, _, g4⟩ := checkForNewIssues_fetched cfg env2
    (checkForNewIssues cfg env1 storage).storage html hget2
  have hnone : (parseIssues cfg env2 html (checkForNewIssues cfg env1 storage).storage).notified
      = [] := by
    rw [h1]
    have : (extractIssues html).filter (fun i => decide (i.id ∉ env1.rangeOrder
        ((FindAllStringSubmatch issueRegexp html).foldl
          (fun c m => mapSet c (toIssue m).id) S))) = [] := by
      rw [List.filter_eq_nil_iff]
      intro i hi
      simp only [extractIssues, List.mem_map] at hi
      obtain ⟨m, hm, rfl⟩ := hi
      simpa using hmem m hm
    rw [this]
    rfl
  refine ⟨⟨_, hload2, ?_⟩, g1.trans hnone, ?_, _, _, k2, g2.trans h2, ?_⟩
  · intro i hi
    simp only [extractIssues, List.mem_map] at hi
    obtain ⟨m, hm, rfl⟩ := hi
    exact hmem m hm
  · rw [g4, h4, hnone]
    rfl
  · rw [foldl_mapSet_of_mem _ _ hmem]
    exact hrange1 _

theorem second_cycle_notifies_nothing_witness :
    (checkForNewIssues sampleConfig sampleEnv
      (checkForNewIssues sampleConfig sampleEnv none).storage).notified = [] :=
  (second_cycle_notifies_nothing sampleConfig sampleEnv sampleEnv sampleHtml none rfl rfl
    ⟨rfl, rfl⟩ (fun l => List.Perm.refl l) rfl rfl).2.1

/-- C3: when a cycle loads the set `S`, discovers an identifier `id` that is
not in `S` and saves successfully, the next load returns a set that contains
`id` and has exactly the keys handed to `saveCache`; and in whatever order the
keys of `S` with `id` are written, loading the written text returns exactly
those keys. -/
theorem saved_identifier_is_reloaded (cfg : Config) (env env2 : Env) (storage : Option Str)
    (html : Str) (S : Cache) (id : Str)
    (hS : loadCache (osReadFile env storage) = Except.ok S)
    (hget : env.get = GetResult.response 200 (Except.ok html))
    (hsave : SaveSucceeds env) (hrange : RangeVisitsKeys env)
    (hid : id ∈ ids (extractIssues html)) (hnew : id ∉ S) (hread2 : env2.readErr = none) :
    (∃ S2 C, loadCache (osReadFile env2 (checkForNewIssues cfg env storage).storage) =
          Except.ok S2 ∧
        (checkForNewIssues cfg env storage).saved = some C ∧
        id ∈ S2 ∧ S2.Perm C ∧ ∀ x, x ∈ S2 ↔ x ∈ S ∨ x ∈ ids (extractIssues html)) ∧
      ∀ order : List Str, order.Perm (mapSet S id) →
        loadCache (ReadResult.ok (stringsJoin ['\n'] order)) = Except.ok order ∧
          ∀ x, x ∈ order ↔ x ∈ S ∨ x = id := by
  obtain ⟨hnd, hll⟩ := loadCache_wellFormed _ S hS
  have hidl : LineLike id := by
    simp only [ids, extractIssues, List.map_map, List.mem_map, Function.comp] at hid
    obtain ⟨m, hm, rfl⟩ := hid
    obtain ⟨h1, h2⟩ := match_id_digits html m hm
    exact digits_lineLike _ h1 h2
  constructor
  · have hread : env.readErr = none := by
      cases hr : env.readErr with
      | none => rfl
      | some msg => simp [osReadFile, hr, loadCache] at hS
    have hS2 : loadCache (readStored storage) = Except.ok S := by
      simpa [osReadFile, hread] using hS
    obtain ⟨_, k2, _, k4⟩ := cycle_success cfg env storage html S hget hread hsave hrange hS2
    refine ⟨_, _, by simpa [osReadFile, hread2] using k4, k2, ?_, hrange _, ?_⟩
    · rw [(hrange _).mem_iff, mem_foldl_mapSet]
      exact Or.inr hid
    · intro x
      rw [(hrange _).mem_iff, mem_foldl_mapSet]
      rfl
  · intro order hperm
    refine ⟨loadCache_join order (hperm.nodup_iff.2 (mapSet_nodup S id hnd)) ?_, ?_⟩
    · intro l hl
      rw [hperm.mem_iff, mem_mapSet] at hl
      rcases hl with hl | hl
      · exact hll l hl
      · exact hl ▸ hidl
    · intro x
      rw [hperm.mem_iff, mem_mapSet]

theorem saved_identifier_is_reloaded_witness :
    "102".toList ∈ ids (extractIssues sampleHtml) ∧ "102".toList ∉ ["101".toList] ∧
    ∀ order : List Str, order.Perm (mapSet ["101".toList] "102".toList) →
      loadCache (ReadResult.ok (stringsJoin ['\n'] order)) = Except.ok order ∧
        ∀ x, x ∈ order ↔ x ∈ ["101".toList] ∨ x = "102".toList :=
  ⟨by decide, by decide,
    (saved_identifier_is_reloaded sampleConfig sampleEnv sampleEnv (some "101".toList) sampleHtml
      ["101".toList] "102".toList (by rfl) rfl ⟨rfl, rfl⟩ (fun l => List.Perm.refl l)
      (by decide) (by decide) rfl).2⟩

/-- C5: in a run that starts without storage and in which every save succeeds,
after every cycle the persisted set holds an identifier exactly when some
cycle so far called `notify` for it; no identifier is notified twice in the
whole run; the POSTs of each cycle are those of its calls of `notify`; and a
further cycle never removes an identifier from the persisted set. -/
theorem dedupe_set_invariant (cfg : Config) (envs : List Env)
    (hsave : ∀ env ∈ envs, SaveSucceeds env ∧ RangeVisitsKeys env) :
    ∃ S, loadCache (readStored (runCycles cfg envs none).2) = Except.ok S ∧
      (∀ x, x ∈ S ↔ ∃ o ∈ (runCycles cfg envs none).1, x ∈ ids o.notified) ∧
      (ids ((runCycles cfg envs none).1.flatMap (fun o => o.notified))).Nodup ∧
      (∀ o ∈ (runCycles cfg envs none).1,
        postsOf o.events = o.notified.flatMap (fun i => notifyPosts cfg i.title i.url)) ∧
      ∀ env, SaveSucceeds env → RangeVisitsKeys env →
        ∃ S2, loadCache (readStored (runCycles cfg (envs ++ [env]) none).2) = Except.ok S2 ∧
          ∀ x ∈ S, x ∈ S2 := by
  obtain ⟨S, h1, h2, h3, _⟩ := run_invariant cfg envs none [] hsave rfl
  refine ⟨S, h1, ?_, h3, ?_, ?_⟩
  · intro x
    rw [h2]
    simp only [List.not_mem_nil, false_or, ids, List.mem_map, List.mem_flatMap]
    constructor
    · rintro ⟨i, ⟨o, ho, hi⟩, rfl⟩
      exact ⟨o, ho, i, hi, rfl⟩
    · rintro ⟨o, ho, i, hi, rfl⟩
      exact ⟨i, ⟨o, ho, hi⟩, rfl⟩
  · intro o ho
    obtain ⟨env, st, rfl⟩ := runCycles_mem cfg envs none o ho
    exact cycle_posts cfg env st
  · intro env hs hr
    rw [runCycles_append]
    obtain ⟨S2, k1, k2, _, _⟩ := cycle_invariant cfg env (runCycles cfg envs none).2 S hs hr h1
    exact ⟨S2, k1, fun x hx => (k2 x).2 (Or.inl hx)⟩

theorem dedupe_set_invariant_witness :
    ∃ S, loadCache (readStored (runCycles sampleConfig [sampleEnv, sampleEnv] none).2) =
        Except.ok S ∧
      (∀ x, x ∈ S ↔
        ∃ o ∈ (runCycles sampleConfig [sampleEnv, sampleEnv] none).1, x ∈ ids o.notified) ∧
      (ids ((runCycles sampleConfig [sampleEnv, sampleEnv] none).1.flatMap
        (fun o => o.notified))).Nodup ∧
      (∀ o ∈ (runCycles sampleConfig [sampleEnv, sampleEnv] none).1,
        postsOf o.events =
          o.notified.flatMap (fun i => notifyPosts sampleConfig i.title i.url)) ∧
      ∀ env, SaveSucceeds env → RangeVisitsKeys env →
        ∃ S2, loadCache (readStored
            (runCycles sampleConfig ([sampleEnv, sampleEnv] ++ [env]) none).2) = Except.ok S2 ∧
          ∀ x ∈ S, x ∈ S2 :=
  dedupe_set_invariant sampleConfig [sampleEnv, sampleEnv]
    (fun env he => by
      have : env = sampleEnv := by simpa using he
      subst this
      exact ⟨⟨rfl, rfl⟩, fun l => List.Perm.refl l⟩)

/-- C6: two runs of a cycle that differ only in what the webhook calls return
make the same POSTs in the same order, notify the same issues, hand the same
map to `saveCache` and leave the same storage; every notified identifier is in
the map handed to `saveCache` whatever the deliveries returned; and the POSTs
of one call of `notify` are one per configured target whatever the earlier
call returned, so the Google Chat POST follows a failed Discord call. -/
theorem webhook_outcomes_do_not_matter (cfg : Config) (env : Env) (w2 : Nat → HttpResult)
    (storage : Option Str) :
    postsOf (checkForNewIssues cfg { env with webhook := w2 } storage).events =
        postsOf (checkForNewIssues cfg env storage).events ∧
      (checkForNewIssues cfg { env with webhook := w2 } storage).notified =
        (checkForNewIssues cfg env storage).notified ∧
      (checkForNewIssues cfg { env with webhook := w2 } storage).saved =
        (checkForNewIssues cfg env storage).saved ∧
      (checkForNewIssues cfg { env with webhook := w2 } storage).storage =
        (checkForNewIssues cfg env storage).storage ∧
      (∀ i ∈ (checkForNewIssues cfg env storage).notified,
        ∃ C, (checkForNewIssues cfg env storage).saved = some C ∧ i.id ∈ C) ∧
      (∀ k t u, postsOf (notify cfg env.webhook k t u).1 = notifyPosts cfg t u) ∧
      ∀ k t u msg, cfg.discordWebhookURL ≠ [] → cfg.googleChatWebhookURL ≠ [] →
        env.webhook k = HttpResult.error msg →
        Event.httpPost cfg.googleChatWebhookURL applicationJson
          [("text".toList, formatMessage t u)] ∈ (notify cfg env.webhook k t u).1 := by
  obtain ⟨h1, h2, h3⟩ := cycle_webhook_irrelevant cfg env w2 storage
  refine ⟨?_, h1, h2, h3, fun i hi => cycle_notified_saved cfg env storage i hi,
    fun k t u => postsOf_notify cfg env.webhook k t u, ?_⟩
  · rw [cycle_posts, cycle_posts, h1]
  · intro k t u msg hd hg _
    simp [notify, hd, hg, notifyGoogleChat]

theorem webhook_outcomes_do_not_matter_witness :
    sampleConfig.discordWebhookURL ≠ [] ∧
    (checkForNewIssues sampleConfig
        { sampleEnv with webhook := fun _ => HttpResult.error "refused".toList } none).saved =
      (checkForNewIssues sampleConfig sampleEnv none).saved :=
  ⟨by decide,
    (webhook_outcomes_do_not_matter sampleConfig sampleEnv
      (fun _ => HttpResult.error "refused".toList) none).2.2.1⟩

/-- C7: a cycle whose GET returns a transport error, a status other than 200
or a body read error does nothing but log: its events are the start line, the
GET and one error line (no read or write of the cache file, no POST), it
notifies nothing, calls neither `loadCache` nor `saveCache`, and leaves the
storage as it was. -/
theorem failed_fetch_has_no_effect (cfg : Config) (env : Env) (storage : Option Str)
    (hget : fetchFailed env.get = true) :
    (∃ line, (checkForNewIssues cfg env storage).events =
        [Event.log "Checking for new issues...".toList, Event.httpGet cfg.repoURL,
          Event.log line]) ∧
      (checkForNewIssues cfg env storage).notified = [] ∧
      (checkForNewIssues cfg env storage).saved = none ∧
      (checkForNewIssues cfg env storage).storage = storage ∧
      postsOf (checkForNewIssues cfg env storage).events = [] := by
  obtain ⟨line, ho⟩ := checkForNewIssues_failed cfg env storage hget
  rw [ho]
  exact ⟨⟨line, rfl⟩, rfl, rfl, rfl, by simp [postsOf]⟩

theorem failed_fetch_has_no_effect_witness :
    fetchFailed (GetResult.response 404 (Except.ok sampleHtml)) = true ∧
    (checkForNewIssues sampleConfig
        { sampleEnv with get := GetResult.response 404 (Except.ok sampleHtml) }
        (some "7".toList)).storage = some "7".toList :=
  ⟨by decide,
    (failed_fetch_has_no_effect sampleConfig
      { sampleEnv with get := GetResult.response 404 (Except.ok sampleHtml) }
      (some "7".toList) (by decide)).2.2.2.1⟩

/-- C8: `loadCache` on storage that does not exist returns the empty map, and
then the cycle notifies the first entry of every extracted identifier; on
existing storage it returns the non-empty lines of the content, each once; it
fails exactly on a read error other than not-exist, and then `parseIssues`
logs, notifies nothing, makes no POST, does not call `saveCache` and leaves
the storage as it was. -/
theorem loadCache_contract (cfg : Config) (env : Env) (html : Str) :
    loadCache ReadResult.notExist = Except.ok [] ∧
      (env.readErr = none →
        (parseIssues cfg env html none).notified = firstById (extractIssues html) ∧
        ∀ i ∈ extractIssues html, i.id ∈ ids (parseIssues cfg env html none).notified) ∧
      (∀ data, ∃ S, loadCache (ReadResult.ok data) = Except.ok S ∧ S.Nodup ∧
        ∀ x, x ∈ S ↔ x ∈ stringsSplit '\n' data ∧ x ≠ []) ∧
      (∀ r, (∃ msg, loadCache r = Except.error msg) ↔ ∃ msg, r = ReadResult.failed msg) ∧
      ∀ storage msg, env.readErr = some msg →
        (∃ line, (parseIssues cfg env html storage).events =
          [Event.log line, Event.readFile cfg.cacheFile,
            Event.log ("Error loading cache: ".toList ++ msg)]) ∧
        (parseIssues cfg env html storage).notified = [] ∧
        postsOf (parseIssues cfg env html storage).events = [] ∧
        (parseIssues cfg env html storage).saved = none ∧
        (parseIssues cfg env html storage).storage = storage := by
  refine ⟨rfl, ?_, ?_, ?_, ?_⟩
  · intro hread
    have hload : loadCache (osReadFile env none) = Except.ok [] := by
      simp [osReadFile, hread, readStored, loadCache]
    obtain ⟨h1, _, _, _⟩ := parseIssues_ok cfg env html none [] hload
    have h2 : (parseIssues cfg env html none).notified = firstById (extractIssues html) := by
      rw [h1]
      congr 1
      simp
    refine ⟨h2, fun i hi => ?_⟩
    rw [h2]
    exact (mem_firstById_ids _ _).2 (List.mem_map.2 ⟨i, hi, rfl⟩)
  · intro data
    refine ⟨_, rfl, loadLines_nodup _ _ List.nodup_nil, fun x => ?_⟩
    rw [mem_loadLines]
    simp
  · intro r
    cases r with
    | notExist => simp [loadCache]
    | failed msg => simp [loadCache]
    | ok data => simp [loadCache]
  · intro storage msg hread
    have hload : loadCache (osReadFile env storage) = Except.error msg := by
      simp [osReadFile, hread, loadCache]
    rw [parseIssues_error cfg env html storage msg hload]
    exact ⟨⟨_, rfl⟩, rfl, by simp [postsOf], rfl, rfl⟩

theorem loadCache_contract_witness :
    sampleEnv.readErr = none ∧
    (parseIssues sampleConfig sampleEnv sampleHtml none).notified =
      firstById (extractIssues sampleHtml) ∧
    (parseIssues sampleConfig { sampleEnv with readErr := some "denied".toList } sampleHtml
      (some "101".toList)).notified = [] :=
  ⟨rfl, ((loadCache_contract sampleConfig sampleEnv sampleHtml).2.1 rfl).1,
    ((loadCache_contract sampleConfig { sampleEnv with readErr := some "denied".toList }
      sampleHtml).2.2.2.2 (some "101".toList) "denied".toList rfl).2.1⟩

/-- C9: one call of `notify` makes exactly one POST to each configured webhook
target and none to an unconfigured one, Discord before Google Chat, each with
content type `application/json`; both carry the message
`New Issue Created:\n\nTitle: ` title `\nURL: ` url, Discord in a JSON object
whose only field is `content`, Google Chat in one whose only field is `text`;
the Discord delivery is logged as successful exactly on status 204 and the
Google Chat delivery exactly on status 200. -/
theorem notify_contract (cfg : Config) (w : Nat → HttpResult) (k : Nat) (t u : Str)
    (r : HttpResult) :
    postsOf (notify cfg w k t u).1 =
        (if cfg.discordWebhookURL ≠ [] then
          [Event.httpPost cfg.discordWebhookURL "application/json".toList
            [("content".toList,
              "New Issue Created:\n\nTitle: ".toList ++ t ++ "\nURL: ".toList ++ u)]]
         else []) ++
        (if cfg.googleChatWebhookURL ≠ [] then
          [Event.httpPost cfg.googleChatWebhookURL "application/json".toList
            [("text".toList,
              "New Issue Created:\n\nTitle: ".toList ++ t ++ "\nURL: ".toList ++ u)]]
         else []) ∧
      (Event.log "Message successfully sent to Discord".toList ∈ notifyDiscord cfg t u r ↔
        ∃ status, r = HttpResult.response 204 status) ∧
      (Event.log "Message successfully sent to Google Chat".toList ∈
          notifyGoogleChat cfg t u r ↔
        ∃ status, r = HttpResult.response 200 status) := by
  refine ⟨postsOf_notify cfg w k t u, ?_, ?_⟩
  · cases r with
    | error msg =>
      constructor
      · intro h
        simp only [notifyDiscord, List.mem_cons, List.mem_singleton, Event.log.injEq,
          reduceCtorEq, false_or, List.not_mem_nil, or_false] at h
        exact absurd h (line_ne _ _ msg (by decide) (by decide))
      · rintro ⟨status, h⟩
        cases h
    | response code status =>
      by_cases hc : code = 204
      · subst hc
        simp [notifyDiscord]
      · constructor
        · intro h
          simp only [notifyDiscord, ne_eq, hc, not_false_eq_true, if_true, List.mem_cons,
            List.mem_singleton, Event.log.injEq, reduceCtorEq, false_or, List.not_mem_nil,
            or_false] at h
          exact absurd h (line_ne _ _ status (by decide) (by decide))
        · rintro ⟨status2, h⟩
          cases h
          exact absurd rfl hc
  · cases r with
    | error msg =>
      constructor
      · intro h
        simp only [notifyGoogleChat, List.mem_cons, List.mem_singleton, Event.log.injEq,
          reduceCtorEq, false_or, List.not_mem_nil, or_false] at h
        exact absurd h (line_ne _ _ msg (by decide) (by decide))
      · rintro ⟨status, h⟩
        cases h
    | response code status =>
      by_cases hc : code = 200
      · subst hc
        simp [notifyGoogleChat]
      · constructor
        · intro h
          simp only [notifyGoogleChat, ne_eq, hc, not_false_eq_true, if_true, List.mem_cons,
            List.mem_singleton, Event.log.injEq, reduceCtorEq, false_or, List.not_mem_nil,
            or_false] at h
          exact absurd h (line_ne _ _ status (by decide) (by decide))
        · rintro ⟨status2, h⟩
          cases h
          exact absurd rfl hc

end BadOmenScout
